import Mathlib

/-!
A verification development for the `react-lineage-map` graph layout and
validation engine (`src/LineageMap.ts`).  The engine's pure computations —
table-relationship inference, level assignment, position calculation,
transformation validation and upstream traversal — are embedded shallowly:
JavaScript `Map`/`Set` values become association lists / duplicate-free
lists preserving insertion order, JavaScript numbers become `ℚ` (the
properties checked here do not hinge on floating-point rounding), and the
`while` loop of `getTableLevels` and the recursive DFS of
`getRelatedFields` are given explicit fuel bounded by the input size, so
that every definition is executable and kernel-reducible.
-/

set_option maxRecDepth 10000

namespace LineageMap

/-! ### Generic list helpers mirroring JavaScript `Set` / `Map` semantics -/

/-- Insert `a` at the back unless already present: `Set.prototype.add`. -/
def insertIfAbsent {α : Type} [DecidableEq α] (l : List α) (a : α) : List α :=
  if a ∈ l then l else l ++ [a]

/-- Worker for `firstDedup`, carrying the set of already-seen elements. -/
def firstDedupAux {α : Type} [DecidableEq α] : List α → List α → List α
  | [], _ => []
  | a :: rest, seen =>
    if a ∈ seen then firstDedupAux rest seen
    else a :: firstDedupAux rest (a :: seen)

/-- Keep the first occurrence of each element, preserving order: the list of
elements of a JavaScript `Set` populated by iterating `l`. -/
def firstDedup {α : Type} [DecidableEq α] (l : List α) : List α :=
  firstDedupAux l []

/-- First-match lookup in an association list: `Map.prototype.get`. -/
def mapLookup {κ α : Type} [DecidableEq κ] (m : List (κ × α)) (k : κ) : Option α :=
  match m.find? (fun p => p.1 = k) with
  | some p => some p.2
  | none => none

/-- `Map.prototype.set`: replace the value at an existing key in place,
otherwise append the binding at the back. -/
def mapSet {κ α : Type} [DecidableEq κ] (m : List (κ × α)) (k : κ) (v : α) : List (κ × α) :=
  if m.any (fun p => p.1 = k) then
    m.map (fun p => if p.1 = k then (k, v) else p)
  else
    m ++ [(k, v)]

/-- `String.prototype.startsWith`, on character lists. -/
def charsPrefix : List Char → List Char → Bool
  | [], _ => true
  | _ :: _, [] => false
  | a :: as, b :: bs => a = b && charsPrefix as bs

/-- `s.split(":")[0]`: the part of `s` before the first colon. -/
def beforeColon (s : String) : String :=
  String.mk (s.data.takeWhile (fun c => c ≠ ':'))

/-! ### The graph data model (`src/types/index.ts`) -/

inductive NodeType where
  | table : NodeType
  | field : NodeType
deriving DecidableEq, Repr

/-- A graph node.  Table nodes carry an optional `tableId`; field nodes have
`tableId` and `transformation` (possibly the empty string, which JavaScript
treats as falsy).  A single structure with optional attributes covers both,
matching the duck-typed access in the source. -/
structure Node where
  id : String
  type : NodeType
  name : String
  tableId : Option String := none
  transformation : Option String := none
deriving DecidableEq, Repr

structure Edge where
  id : String
  source : String
  target : String
  type : String
deriving DecidableEq, Repr

structure Graph where
  nodes : List Node
  edges : List Edge
deriving DecidableEq, Repr

structure TableLevel where
  id : String
  level : Int
  dependencies : List String
deriving DecidableEq, Repr

structure Position where
  x : ℚ
  y : ℚ
deriving DecidableEq, Repr

/-- The six numeric layout options read by `calculatePositions`. -/
structure LayoutOptions where
  tableWidth : ℚ
  tableHeight : ℚ
  fieldHeight : ℚ
  fieldSpacing : ℚ
  levelPadding : ℚ
  verticalPadding : ℚ
deriving DecidableEq, Repr

/-- `graph.nodes.find(n => n.id === nid)`. -/
def findNode (g : Graph) (nid : String) : Option Node :=
  g.nodes.find? (fun n => n.id = nid)

/-- A JavaScript truthiness filter on an optional string: `undefined` and the
empty string are falsy. -/
def truthyStr : Option String → Option String
  | none => none
  | some s => if s = "" then none else some s

/-- The truthy `tableId` of the node a raw id resolves to, as read by
`sourceField?.tableId` in `inferTableRelationships`. -/
def resolvedTableId (g : Graph) (nid : String) : Option String :=
  match findNode g nid with
  | none => none
  | some n => truthyStr n.tableId

/-! ### Table relationship inference (`inferTableRelationships`) -/

/-- One step of the `graph.edges.forEach` loop: the state is the set of
already-emitted ordered table pairs together with the emitted edges. -/
def inferStep (g : Graph) (st : List (String × String) × List Edge) (e : Edge) :
    List (String × String) × List Edge :=
  match resolvedTableId g e.source, resolvedTableId g e.target with
  | some s, some t =>
    if s ≠ t then
      if (s, t) ∈ st.1 then st
      else (st.1 ++ [(s, t)],
            st.2 ++ [⟨"table-" ++ s ++ "->" ++ t, s, t, "table-table"⟩])
    else st
  | _, _ => st

/-- `inferTableRelationships(graph)`: deduplicated table-table edges in order
of first occurrence. -/
def inferTableRelationships (g : Graph) : List Edge :=
  (g.edges.foldl (inferStep g) ([], [])).2

/-- The resolved ordered table pair of a single field-field edge, when both
endpoints resolve to nodes with truthy, distinct `tableId`s. -/
def resolvedPair (g : Graph) (e : Edge) : Option (String × String) :=
  match resolvedTableId g e.source, resolvedTableId g e.target with
  | some s, some t => if s ≠ t then some (s, t) else none
  | _, _ => none

/-- The inferred edge synthesized for a resolved table pair. -/
def mkInferredEdge (p : String × String) : Edge :=
  ⟨"table-" ++ p.1 ++ "->" ++ p.2, p.1, p.2, "table-table"⟩

/-! ### Level assignment (`getTableLevels`) -/

/-- The table nodes of a graph (`node.type === 'table'`). -/
def tableNodesOf (g : Graph) : List Node :=
  g.nodes.filter (fun n => n.type = NodeType.table)

/-- The `upstreamTableDependencies` entry of a table id: the set of targets
of inferred edges whose source is that table, in insertion order.  (The map
is only ever queried at table-node ids; inferred edges whose source is not a
table id are dropped by the `if (upstreamDeps)` guard in the source.) -/
def depsOf (inferred : List Edge) (t : String) : List String :=
  firstDedup ((inferred.filter (fun e => e.source = t)).map (fun e => e.target))

/-- The tables having no inferred edge at all (`tablesWithNoConnections`). -/
def isolatedTables (tableNodes : List Node) (inferred : List Edge) : List Node :=
  tableNodes.filter (fun tb =>
    ¬ inferred.any (fun e => e.target = tb.id) ∧
    ¬ inferred.any (fun e => e.source = tb.id))

/-- The round-assignment `while` loop of `getTableLevels`, with explicit
fuel.  `tableNodes` drives the loop bound (`processed.size <
tableNodes.length`), `mapKeys` is the key list of
`upstreamTableDependencies` (table ids, first occurrences, in insertion
order), `processed` is kept duplicate-free so its length is the
JavaScript `Set` size.  Returns the emitted `TableLevel` records together
with the final `maxLevel`. -/
def levelsLoop (tableNodes : List Node) (mapKeys : List String)
    (deps : String → List String) :
    Nat → List String → Int → Int → List TableLevel × Int
  | 0, _, _, maxLevel => ([], maxLevel)
  | fuel + 1, processed, currentLevel, maxLevel =>
    if processed.length < tableNodes.length then
      let candidates := mapKeys.filter (fun t =>
        t ∉ processed ∧ (deps t).all (fun d => d ∈ processed))
      if candidates = [] then
        -- cycle fallback: assign every remaining table to the current round
        let remainingNodes := tableNodes.filter (fun tb => tb.id ∉ processed)
        let recs := remainingNodes.map (fun tb =>
          TableLevel.mk tb.id currentLevel (deps tb.id))
        let processed' := remainingNodes.foldl
          (fun p tb => insertIfAbsent p tb.id) processed
        let rest := levelsLoop tableNodes mapKeys deps fuel processed'
          (currentLevel + 1) maxLevel
        (recs ++ rest.1, rest.2)
      else
        let maxLevel' := if currentLevel > maxLevel then currentLevel else maxLevel
        let recs := candidates.map (fun t =>
          TableLevel.mk t currentLevel (deps t))
        let rest := levelsLoop tableNodes mapKeys deps fuel
          (processed ++ candidates) (currentLevel + 1) maxLevel'
        (recs ++ rest.1, rest.2)
    else
      ([], maxLevel)

/-- Ascending insertion into a sorted list of levels (the comparator
`(a, b) => a - b` of the final sort). -/
def insertAsc (x : Int) : List Int → List Int
  | [] => [x]
  | y :: ys => if x ≤ y then x :: y :: ys else y :: insertAsc x ys

/-- Sort level keys ascending. -/
def sortAsc (l : List Int) : List Int :=
  l.foldl (fun acc x => insertAsc x acc) []

/-- `getTableLevels(graph)`: level-0 records for isolated tables, rounds of
the worklist loop for the rest, the `maxLevel − level + 1` remap of non-zero
levels, and the final group-by-level / sort / flatten. -/
def getTableLevels (g : Graph) : List TableLevel :=
  let tableNodes := tableNodesOf g
  let inferred := inferTableRelationships g
  let mapKeys := firstDedup (tableNodes.map (fun tb => tb.id))
  let deps := depsOf inferred
  let isolated := isolatedTables tableNodes inferred
  let isoRecs := isolated.map (fun tb => TableLevel.mk tb.id 0 [])
  let processed0 := firstDedup (isolated.map (fun tb => tb.id))
  let res := levelsLoop tableNodes mapKeys deps (tableNodes.length + 1)
    processed0 1 1
  let maxLevel := res.2
  let levels := isoRecs ++ res.1
  let remapped := levels.map (fun r =>
    if r.level = 0 then r else { r with level := maxLevel - r.level + 1 })
  let distinctLevels := sortAsc (firstDedup (remapped.map (fun r => r.level)))
  distinctLevels.flatMap (fun l => remapped.filter (fun r => r.level = l))

/-! ### Upstream traversal (`getRelatedFields`) -/

/-- The recursive `traverse` of `getRelatedFields`, with fuel bounding the
recursion depth.  State: `(related, visited)`, both duplicate-free lists in
insertion order. -/
def traverseUp (edges : List Edge) :
    Nat → String → List String × List String → List String × List String
  | 0, _, st => st
  | fuel + 1, id, st =>
    if id ∈ st.2 then st
    else
      edges.foldl (fun acc e =>
        if e.target = id then
          traverseUp edges fuel e.source (insertIfAbsent acc.1 e.source, acc.2)
        else acc)
        (st.1, st.2 ++ [id])

/-- The body of the `graph.edges.forEach` inside `traverse`: on an edge
into the current id, add its source to the related set and recurse. -/
def traverseStep (edges : List Edge) (fuel : Nat) (id : String)
    (acc : List String × List String) (e : Edge) : List String × List String :=
  if e.target = id then
    traverseUp edges fuel e.source (insertIfAbsent acc.1 e.source, acc.2)
  else acc

/-- `getRelatedFields(graph, fieldId)`: the start id plus everything
reachable by walking edges backward.  The recursion depth of `traverse` is
bounded by the number of distinct visitable ids, at most
`edges.length + 1`. -/
def getRelatedFields (g : Graph) (fieldId : String) : List String :=
  (traverseUp g.edges (g.edges.length + 2) fieldId ([fieldId], [])).1

/-! ### Transformation validation (`validateTransformations`) -/

/-- A character matched by the regex class `[a-zA-Z_]`. -/
def isWordChar (c : Char) : Bool :=
  ('a' ≤ c ∧ c ≤ 'z') ∨ ('A' ≤ c ∧ c ≤ 'Z') ∨ c = '_'

/-- A character matched by `\d`. -/
def isDigitChar (c : Char) : Bool :=
  '0' ≤ c ∧ c ≤ '9'

/-- Maximal run of characters satisfying `p`: `(run, rest)`. -/
def takeRun (p : Char → Bool) : List Char → List Char × List Char
  | [] => ([], [])
  | c :: cs =>
    if p c then
      let r := takeRun p cs
      (c :: r.1, r.2)
    else ([], c :: cs)

/-- Fueled scanner for the global regex `[a-zA-Z_]+:[a-zA-Z_]+\d*`: at each
position try the (deterministic, backtracking-free) match; on failure
advance one character, on success emit the token and continue after it.
Fuel at least the length of the input makes the scan exhaustive. -/
def scanTokensF : Nat → List Char → List String
  | 0, _ => []
  | _, [] => []
  | fuel + 1, c :: cs =>
    if isWordChar c then
      let r1 := takeRun isWordChar (c :: cs)
      match r1.2 with
      | ':' :: rest2 =>
        let r2 := takeRun isWordChar rest2
        if r2.1 = [] then scanTokensF fuel cs
        else
          let r3 := takeRun isDigitChar r2.2
          String.mk (r1.1 ++ ':' :: r2.1 ++ r3.1) :: scanTokensF fuel r3.2
      | _ => scanTokensF fuel cs
    else scanTokensF fuel cs

/-- `transformation.match(/[a-zA-Z_]+:[a-zA-Z_]+\d*/g) || []`. -/
def scanTokens (s : String) : List String :=
  scanTokensF s.data.length s.data

/-- One step of the reverse-adjacency pass of `validateTransformations`:
record the edge's source under the target's incoming set. -/
def incStep (m : List (String × List String)) (e : Edge) : List (String × List String) :=
  match mapLookup m e.target with
  | some s => mapSet m e.target (insertIfAbsent s e.source)
  | none => mapSet m e.target (insertIfAbsent [] e.source)

/-- The incoming-edge index `Map<string, Set<string>>` of
`validateTransformations`, built by one pass over the edges. -/
def incomingIndex (edges : List Edge) : List (String × List String) :=
  edges.foldl incStep []

/-- The deduplicated sources of the edges into a target id, in edge order:
the closed form of the incoming index. -/
def incomingSources (edges : List Edge) (t : String) : List String :=
  firstDedup ((edges.filter (fun e => e.target = t)).map (fun e => e.source))

/-- The first error message. -/
def msgNoEdge (fieldRef nodeId : String) : String :=
  "Field \"" ++ fieldRef ++ "\" is used in transformation but has no edge connecting to \"" ++ nodeId ++ "\"."

/-- The second error message. -/
def msgUnused (sourceField : String) : String :=
  "Field \"" ++ sourceField ++ "\" has an edge but isn\x27t used in the transformation."

/-- The error list computed for one field node. -/
def errsOf (g : Graph) (nid tr : String) : List String :=
  ((firstDedup (scanTokens tr)).filter
      (fun r => r ∉ (mapLookup (incomingIndex g.edges) nid).getD [])).map
    (fun r => msgNoEdge r nid) ++
  (((mapLookup (incomingIndex g.edges) nid).getD []).filter
      (fun s => s ∉ firstDedup (scanTokens tr))).map (fun s => msgUnused s)

/-- One step of the per-node validation pass. -/
def vstep (g : Graph) (report : List (String × List String)) (n : Node) :
    List (String × List String) :=
  match n.type, truthyStr n.transformation with
  | NodeType.field, some tr =>
    if errsOf g n.id tr = [] then report else mapSet report n.id (errsOf g n.id tr)
  | _, _ => report

/-- `validateTransformations(graph)`: the validation report, keyed by field
id, containing only non-empty error lists. -/
def validateTransformations (g : Graph) : List (String × List String) :=
  g.nodes.foldl (vstep g) []

/-- The report entry the specification predicts for a node: present exactly
for field nodes with a truthy transformation and a non-empty discrepancy
list — one message per deduplicated referenced token missing from the
incoming-source set, then one per incoming source missing from the
referenced set. -/
def expectedEntry (g : Graph) (n : Node) : Option (List String) :=
  match n.type, truthyStr n.transformation with
  | NodeType.field, some tr =>
    let refs := firstDedup (scanTokens tr)
    let inc := incomingSources g.edges n.id
    let E := (refs.filter (fun r => r ∉ inc)).map (fun r => msgNoEdge r n.id)
      ++ (inc.filter (fun s => s ∉ refs)).map (fun s => msgUnused s)
    if E = [] then none else some E
  | _, _ => none

/-! ### Position calculation (`getOptimalTableY`, `calculatePositions`) -/

/-- State of the `for (const edge of incomingEdges)` loop in
`getOptimalTableY`: the distinct sources seen (`edgeSourceSet`), the
distinct source-table prefixes (`tableSourceSet`), the running sum and the
running minimum. -/
structure OptState where
  edgeSrc : List String
  tabSet : List String
  totalY : ℚ
  minY : Option ℚ
deriving DecidableEq, Repr

/-- One iteration of the loop body of `getOptimalTableY`.  A source whose
position is missing, or whose `y` is `0` (falsy in JavaScript), joins
`edgeSourceSet` but contributes neither to the sum nor to the minimum. -/
def optStep (positions : List (String × Position)) (st : OptState) (e : Edge) :
    OptState :=
  let tabSet' := insertIfAbsent st.tabSet (beforeColon e.source)
  if e.source ∈ st.edgeSrc then { st with tabSet := tabSet' }
  else
    let st' := { st with tabSet := tabSet', edgeSrc := st.edgeSrc ++ [e.source] }
    match mapLookup positions e.source with
    | none => st'
    | some p =>
      if p.y = 0 then st'
      else
        { st' with
          totalY := st'.totalY + p.y,
          minY := match st'.minY with
            | none => some p.y
            | some m => if p.y < m then some p.y else some m }

/-- `getOptimalTableY(graph, tableId, positions)`.  Note the source filters
incoming edges by `e.target.startsWith(tableId)` and groups sources by the
substring before the first `:`. -/
def getOptimalTableY (g : Graph) (tableId : String)
    (positions : List (String × Position)) : Option ℚ :=
  let incoming := g.edges.filter (fun e => charsPrefix tableId.data e.target.data)
  if incoming = [] then none
  else
    let st := incoming.foldl (optStep positions) ⟨[], [], 0, none⟩
    if st.tabSet.length = 1 then st.minY
    else some (st.totalY / (st.edgeSrc.length : ℚ))

/-- The effective height of a table (`getTableHeight` inside
`calculatePositions`). -/
def effHeight (g : Graph) (expanded : List String) (opts : LayoutOptions)
    (tableId : String) : ℚ :=
  if tableId ∈ expanded then
    let fieldCount := (g.nodes.filter (fun n =>
      n.type = NodeType.field ∧ n.tableId = some tableId)).length
    opts.tableHeight + (fieldCount : ℚ) * (opts.fieldHeight + opts.fieldSpacing)
  else opts.tableHeight

/-- `tablesByLevel`: group the level records by level, keys in order of
first occurrence, ids in record order. -/
def groupByLevel (tls : List TableLevel) : List (Int × List String) :=
  tls.foldl (fun acc tl =>
    if acc.any (fun p => p.1 = tl.level) then
      acc.map (fun p => if p.1 = tl.level then (p.1, p.2 ++ [tl.id]) else p)
    else acc ++ [(tl.level, [tl.id])]) []

/-- The total extent of one level (`levelHeights`). -/
def levelHeight (g : Graph) (expanded : List String) (opts : LayoutOptions)
    (tids : List String) : ℚ :=
  tids.foldl (fun acc tid => acc + effHeight g expanded opts tid + opts.verticalPadding) 0

/-- `Math.max(...)` over a list; the empty case (`-Infinity` in JavaScript)
is never consulted by `calculatePositions`. -/
def maxRat : List ℚ → ℚ
  | [] => 0
  | x :: xs => xs.foldl max x

/-- Place the fields of an expanded table under its header. -/
def placeFields (g : Graph) (opts : LayoutOptions) (tableId : String)
    (levelX yPos : ℚ) (pm : List (String × Position)) : List (String × Position) :=
  let fields := g.nodes.filter (fun n =>
    n.type = NodeType.field ∧ n.tableId = some tableId)
  (fields.enum).foldl (fun acc iv =>
    mapSet acc iv.2.id
      ⟨levelX, yPos + opts.tableHeight + (iv.1 : ℚ) * (opts.fieldHeight + opts.fieldSpacing)⟩)
    pm

/-- Place one non-first table of a level: the sequential-cursor branch only
(`idx !== 0` never consults `getOptimalTableY`).  State:
`(positions, currentY)`.  A level id not found among the graph's nodes is
skipped without advancing the cursor. -/
def placeRest (g : Graph) (expanded : List String) (opts : LayoutOptions)
    (levelX : ℚ) (st : List (String × Position) × ℚ) (tableId : String) :
    List (String × Position) × ℚ :=
  match findNode g tableId with
  | none => st
  | some _ =>
    let yPos := st.2 + opts.verticalPadding
    let pm1 := mapSet st.1 tableId ⟨levelX, yPos⟩
    let pm2 := if tableId ∈ expanded then placeFields g opts tableId levelX yPos pm1 else pm1
    (pm2, yPos + effHeight g expanded opts tableId + opts.verticalPadding)

/-- Place the first table of a level: the sequential cursor is overridden by
`getOptimalTableY` whenever the latter is non-null. -/
def placeFirst (g : Graph) (expanded : List String) (opts : LayoutOptions)
    (levelX : ℚ) (st : List (String × Position) × ℚ) (tableId : String) :
    List (String × Position) × ℚ :=
  match findNode g tableId with
  | none => st
  | some _ =>
    let yPos :=
      match getOptimalTableY g tableId st.1 with
      | some v => v
      | none => st.2 + opts.verticalPadding
    let pm1 := mapSet st.1 tableId ⟨levelX, yPos⟩
    let pm2 := if tableId ∈ expanded then placeFields g opts tableId levelX yPos pm1 else pm1
    (pm2, yPos + effHeight g expanded opts tableId + opts.verticalPadding)

/-- Lay out one level group. -/
def placeGroup (g : Graph) (expanded : List String) (opts : LayoutOptions)
    (maxH : ℚ) (heights : List (Int × ℚ)) (positions : List (String × Position))
    (grp : Int × List String) : List (String × Position) :=
  let levelX := (grp.1 : ℚ) * (opts.tableWidth + opts.levelPadding)
  let lvlH := (mapLookup heights grp.1).getD 0
  let y0 := (maxH - lvlH) / 2
  match grp.2 with
  | [] => positions
  | t :: rest =>
    (rest.foldl (placeRest g expanded opts levelX)
      (placeFirst g expanded opts levelX (positions, y0) t)).1

/-- The level-driven main pass of `calculatePositions`, before default
positions are filled in. -/
def positionsMain (g : Graph) (tls : List TableLevel) (expanded : List String)
    (opts : LayoutOptions) : List (String × Position) :=
  let groups := groupByLevel tls
  let heights := groups.map (fun p => (p.1, levelHeight g expanded opts p.2))
  let maxH := maxRat (heights.map (fun p => p.2))
  groups.foldl (placeGroup g expanded opts maxH heights) []

/-- `calculatePositions(graph, tableLevels)` (with the instance state
`expandedTables` and `options` made explicit): the main pass followed by the
`(0, 0)` default for every node id not yet positioned. -/
def calculatePositions (g : Graph) (tls : List TableLevel) (expanded : List String)
    (opts : LayoutOptions) : List (String × Position) :=
  g.nodes.foldl (fun pm n =>
    if (mapLookup pm n.id).isSome then pm else mapSet pm n.id ⟨0, 0⟩)
    (positionsMain g tls expanded opts)

/-! ### Specification-side notions -/

/-- Backward reachability along edges (target to source), starting at
`start`: the upstream closure relation of §4.5. -/
inductive UpReach (edges : List Edge) (start : String) : String → Prop
  | refl : UpReach edges start start
  | step {y : String} (e : Edge) (he : e ∈ edges) (ht : e.target = y)
      (hy : UpReach edges start y) : UpReach edges start e.source

/-- A finite edge-pair relation is acyclic exactly when it admits a rank
function that strictly decreases from source to target (a topological
grading); this is the standard characterization used here as the formal
reading of "the inferred edges form an acyclic relation". -/
def AcyclicPairs (ps : List (String × String)) : Prop :=
  ∃ rank : String → Nat, ∀ p ∈ ps, rank p.2 < rank p.1

/-- The ordered pair carried by an edge. -/
def pairOf (e : Edge) : String × String := (e.source, e.target)

/-- A table participates in at least one inferred table-table edge. -/
def hasInferredEdge (g : Graph) (tid : String) : Bool :=
  (inferTableRelationships g).any (fun e => e.target = tid || e.source = tid)

/-- The table-id list of a graph (the key set of
`upstreamTableDependencies`, before deduplication). -/
def tableIds (g : Graph) : List String :=
  (tableNodesOf g).map (fun tb => tb.id)

/-! ### Concrete instances used by counterexamples and witnesses -/

/-- A table node. -/
def nT (i : String) : Node := ⟨i, NodeType.table, i, none, none⟩

/-- A field node owned by table `t`. -/
def nF (i t : String) : Node := ⟨i, NodeType.field, i, some t, none⟩

/-- A field-field edge. -/
def eFF (s t : String) : Edge := ⟨s ++ "->" ++ t, s, t, "field-field"⟩

/-- Tables `B`, `X`, `Y` with inferred edges `X→Y`, `Y→X`, `Y→B`: the cycle
forces the fallback round after one normal round, so `X` and `Y` end at
level `0` although they have inferred edges. -/
def gC2 : Graph :=
  ⟨[nT "B", nT "X", nT "Y", nF "b" "B", nF "x" "X", nF "y" "Y"],
   [eFF "x" "y", eFF "y" "x", eFF "y" "b"]⟩

/-- Tables `A`, `B` plus a field whose `tableId` `G` is no table node: the
inferred edges `A→B`, `B→G` are acyclic, yet `G` can never be processed, so
the fallback assigns `A` and `B` the same level. -/
def gC1 : Graph :=
  ⟨[nT "A", nT "B", nF "a" "A", nF "b" "B", nF "g" "G"],
   [eFF "a" "b", eFF "b" "g"]⟩

/-- A well-formed acyclic chain `A→B→C`. -/
def gW1 : Graph :=
  ⟨[nT "A", nT "B", nT "C", nF "a" "A", nF "b" "B", nF "c" "C"],
   [eFF "a" "b", eFF "b" "c"]⟩

/-- A rank function witnessing acyclicity of `gW1`'s inferred edges. -/
def rankW1 (s : String) : Nat :=
  if s = "A" then 2 else if s = "B" then 1 else 0

/-- A two-cycle `X↔Y` plus an isolated table `E` (the §8 cycle scenario). -/
def gW3 : Graph :=
  ⟨[nT "X", nT "Y", nT "E", nF "x" "X", nF "y" "Y"],
   [eFF "x" "y", eFF "y" "x"]⟩

/-- The §8 validation scenario: `D:D1` has a transformation referencing
`A:A7` and `C:C1`, and incoming edges from `A:A1`, `B:B1`, `C:C1`, `A:A7`. -/
def gC6 : Graph :=
  ⟨[nT "A", nT "B", nT "C", nT "D",
    nF "A:A1" "A", nF "A:A7" "A", nF "B:B1" "B", nF "C:C1" "C",
    ⟨"D:D1", NodeType.field, "D1", some "D", some "A:A7 + C:C1"⟩],
   [eFF "A:A1" "D:D1", eFF "B:B1" "D:D1", eFF "C:C1" "D:D1", eFF "A:A7" "D:D1"]⟩

/-- Two upstream tables `S1` (expanded) and `S2` (collapsed) feeding the
sole level-2 table `T`; the source field of `S2` has no computed position
when `T` is placed. -/
def gC4 : Graph :=
  ⟨[nT "S1", nT "S2", nT "T", nF "S1:a" "S1", nF "S2:b" "S2", nF "T:x" "T"],
   [eFF "S1:a" "T:x", eFF "S2:b" "T:x"]⟩

/-- Layout options used by the concrete position computations. -/
def optsC4 : LayoutOptions := ⟨100, 40, 20, 10, 80, 20⟩

/-- Levels for `gC4`. -/
def tlsC4 : List TableLevel := [⟨"S1", 1, []⟩, ⟨"S2", 1, []⟩, ⟨"T", 2, []⟩]

/-- Table `A` is a proper prefix of table `AB`; the only edges target the
field `AB:x` of `AB`, and their sources share the colon prefix `S` although
their nodes' `tableId`s are the distinct `Q1` and `Q2`. -/
def gC10 : Graph :=
  ⟨[nT "A", nT "AB", nF "AB:x" "AB", nF "S:a" "Q1", nF "S:b" "Q2"],
   [eFF "S:a" "AB:x", eFF "S:b" "AB:x"]⟩

/-- Already-computed positions handed to `getOptimalTableY` for `gC10`. -/
def posC10 : List (String × Position) := [("S:a", ⟨0, 50⟩), ("S:b", ⟨0, 30⟩)]

/-- A backward cycle `p↔q` with a further upstream source `r`. -/
def gC8 : Graph := ⟨[], [eFF "p" "q", eFF "q" "p", eFF "r" "p"]⟩

/-- A rank function witnessing acyclicity of `gC1`'s inferred edges
`A→B`, `B→G`. -/
def rankC1 (s : String) : Nat :=
  if s = "A" then 2 else if s = "B" then 1 else 0

/-- The single default step of `calculatePositions`. -/
def defaultStep (pm : List (String × Position)) (n : Node) : List (String × Position) :=
  if (mapLookup pm n.id).isSome then pm else mapSet pm n.id ⟨0, 0⟩

/-- The truthy already-computed `y` of a source id: `undefined` and `0` are
falsy, so such sources contribute nothing to sum or minimum. -/
def truthyY (positions : List (String × Position)) (s : String) : Option ℚ :=
  match mapLookup positions s with
  | some p => if p.y = 0 then none else some p.y
  | none => none

/-- Fold the running-minimum update of `getOptimalTableY` over a value
list, starting from an optional current minimum. -/
def minFold (m : Option ℚ) (l : List ℚ) : Option ℚ :=
  l.foldl (fun acc v =>
    match acc with
    | none => some v
    | some x => if v < x then some v else some x) m

/-- The minimum of a value list, `none` when empty. -/
def minQ : List ℚ → Option ℚ
  | [] => none
  | x :: xs => some (xs.foldl min x)

/-- The already-computed positions present when the level-2 table `T` of
`gC4` is placed by `calculatePositions gC4 tlsC4 ["S1"] optsC4`. -/
def posW : List (String × Position) :=
  [("S1", ⟨180, 20⟩), ("S1:a", ⟨180, 60⟩), ("S2", ⟨180, 130⟩)]

/-- The incoming edges counted for a table by `getOptimalTableY`:
targets that merely start with the table id. -/
def incomingOf (g : Graph) (tid : String) : List Edge :=
  g.edges.filter (fun e => charsPrefix tid.data e.target.data)

/-- The distinct sources of those edges (`edgeSourceSet`), in first
occurrence order. -/
def distinctSources (g : Graph) (tid : String) : List String :=
  firstDedup ((incomingOf g tid).map (fun e => e.source))

/-- The distinct colon-prefix source tables (`tableSourceSet`). -/
def distinctSourceTables (g : Graph) (tid : String) : List String :=
  firstDedup ((incomingOf g tid).map (fun e => beforeColon e.source))

/-- The loop phase of `getTableLevels` on a graph: table nodes, map keys,
dependency sets, fuel, the isolated tables pre-processed, rounds from 1. -/
def loopRes (g : Graph) : List TableLevel × Int :=
  levelsLoop (tableNodesOf g)
    (firstDedup ((tableNodesOf g).map (fun tb => tb.id)))
    (depsOf (inferTableRelationships g))
    ((tableNodesOf g).length + 1)
    (firstDedup ((isolatedTables (tableNodesOf g) (inferTableRelationships g)).map
      (fun tb => tb.id)))
    1 1

/-- The record list of `getTableLevels` before the level remap: level-0
records for isolated tables, then the loop's records. -/
def levelsPre (g : Graph) : List TableLevel :=
  (isolatedTables (tableNodesOf g) (inferTableRelationships g)).map
    (fun tb => TableLevel.mk tb.id 0 [])
  ++ (loopRes g).1

/-- The records after the `maxLevel − level + 1` remap of non-zero levels. -/
def remappedOf (g : Graph) : List TableLevel :=
  (levelsPre g).map (fun r =>
    if r.level = 0 then r else { r with level := (loopRes g).2 - r.level + 1 })

/-! ### Generic lemmas about the JavaScript-container helpers -/

theorem mem_firstDedupAux {α : Type} [DecidableEq α] {l seen : List α} {x : α} :
    x ∈ firstDedupAux l seen ↔ x ∈ l ∧ x ∉ seen := by
  induction l generalizing seen with
  | nil => simp [firstDedupAux]
  | cons a rest ih =>
    by_cases ha : a ∈ seen
    · simp only [firstDedupAux, if_pos ha, ih, List.mem_cons]
      constructor
      · rintro ⟨hx, hs⟩; exact ⟨Or.inr hx, hs⟩
      · rintro ⟨hx | hx, hs⟩
        · subst hx; exact absurd ha hs
        · exact ⟨hx, hs⟩
    · rw [firstDedupAux, if_neg ha]
      simp only [List.mem_cons, ih]
      constructor
      · rintro (rfl | ⟨hx, hs⟩)
        · exact ⟨Or.inl rfl, ha⟩
        · exact ⟨Or.inr hx, fun h => hs (Or.inr h)⟩
      · rintro ⟨rfl | hx, hs⟩
        · exact Or.inl rfl
        · by_cases hxa : x = a
          · exact Or.inl hxa
          · exact Or.inr ⟨hx, fun h => h.elim hxa hs⟩

theorem mem_firstDedup {α : Type} [DecidableEq α] {l : List α} {x : α} :
    x ∈ firstDedup l ↔ x ∈ l := by
  simp [firstDedup, mem_firstDedupAux]

theorem nodup_firstDedupAux {α : Type} [DecidableEq α] (l seen : List α) :
    (firstDedupAux l seen).Nodup := by
  induction l generalizing seen with
  | nil => simp [firstDedupAux]
  | cons a rest ih =>
    by_cases ha : a ∈ seen
    · simpa [firstDedupAux, if_pos ha] using ih seen
    · rw [firstDedupAux, if_neg ha]
      refine List.nodup_cons.mpr ⟨fun hmem => ?_, ih (a :: seen)⟩
      exact (mem_firstDedupAux.mp hmem).2 (List.mem_cons_self a seen)

theorem nodup_firstDedup {α : Type} [DecidableEq α] (l : List α) :
    (firstDedup l).Nodup :=
  nodup_firstDedupAux l []

theorem firstDedupAux_eq_self {α : Type} [DecidableEq α] {l seen : List α}
    (hl : l.Nodup) (hd : ∀ x ∈ l, x ∉ seen) : firstDedupAux l seen = l := by
  induction l generalizing seen with
  | nil => rfl
  | cons a rest ih =>
    have ha : a ∉ seen := hd a (List.mem_cons_self a rest)
    rw [firstDedupAux, if_neg ha]
    congr 1
    refine ih (List.nodup_cons.mp hl).2 ?_
    intro x hx
    intro hmem
    rcases List.mem_cons.mp hmem with rfl | hmem
    · exact (List.nodup_cons.mp hl).1 hx
    · exact hd x (List.mem_cons_of_mem _ hx) hmem

theorem firstDedup_eq_self {α : Type} [DecidableEq α] {l : List α}
    (hl : l.Nodup) : firstDedup l = l :=
  firstDedupAux_eq_self hl (by simp)

theorem mem_insertIfAbsent {α : Type} [DecidableEq α] {l : List α} {a x : α} :
    x ∈ insertIfAbsent l a ↔ x ∈ l ∨ x = a := by
  by_cases h : a ∈ l
  · simp only [insertIfAbsent, if_pos h]
    constructor
    · exact Or.inl
    · rintro (hx | rfl)
      · exact hx
      · exact h
  · simp [insertIfAbsent, if_neg h]

theorem nodup_insertIfAbsent {α : Type} [DecidableEq α] {l : List α} (a : α)
    (hl : l.Nodup) : (insertIfAbsent l a).Nodup := by
  by_cases h : a ∈ l
  · simpa [insertIfAbsent, if_pos h] using hl
  · rw [insertIfAbsent, if_neg h]
    exact List.Nodup.append hl (List.nodup_singleton a)
      (by intro x hx hmem; rcases List.mem_singleton.mp hmem with rfl; exact h hx)

theorem insertIfAbsent_of_not_mem {α : Type} [DecidableEq α] {l : List α} {a : α}
    (h : a ∉ l) : insertIfAbsent l a = l ++ [a] := by
  rw [insertIfAbsent, if_neg h]

/-- A nonempty list has an element minimizing any `Nat`-valued function. -/
theorem exists_min_image {α : Type} (l : List α) (f : α → Nat) (hl : l ≠ []) :
    ∃ u ∈ l, ∀ v ∈ l, f u ≤ f v := by
  induction l with
  | nil => exact absurd rfl hl
  | cons a rest ih =>
    rcases eq_or_ne rest [] with rfl | hr
    · exact ⟨a, List.mem_cons_self a [], by intro v hv; rcases List.mem_singleton.mp hv with rfl; exact le_rfl⟩
    · obtain ⟨u, hu, hmin⟩ := ih hr
      by_cases hau : f a ≤ f u
      · refine ⟨a, List.mem_cons_self a rest, ?_⟩
        intro v hv
        rcases List.mem_cons.mp hv with rfl | hv
        · exact le_rfl
        · exact le_trans hau (hmin v hv)
      · refine ⟨u, List.mem_cons_of_mem _ hu, ?_⟩
        intro v hv
        rcases List.mem_cons.mp hv with rfl | hv
        · exact le_of_not_le hau
        · exact hmin v hv

/-- Two duplicate-free lists with the same members have the same length. -/
theorem nodup_length_eq_of_mem_iff {α : Type} [DecidableEq α] {l₁ l₂ : List α}
    (h₁ : l₁.Nodup) (h₂ : l₂.Nodup) (h : ∀ x, x ∈ l₁ ↔ x ∈ l₂) :
    l₁.length = l₂.length := by
  rw [← List.toFinset_card_of_nodup h₁, ← List.toFinset_card_of_nodup h₂]
  congr 1
  ext x
  simpa using h x

/-- The loop guard `processed.size < tableNodes.length` holds exactly when
some key remains unprocessed. -/
theorem length_lt_iff_remaining {processed K : List String}
    (hp : processed.Nodup) (hK : K.Nodup) (hsub : ∀ p ∈ processed, p ∈ K) :
    processed.length < K.length ↔ K.filter (fun k => k ∉ processed) ≠ [] := by
  have hpart : List.Perm
      (K.filter (fun k => (k ∈ processed : Bool)) ++ K.filter (fun k => !(k ∈ processed : Bool))) K :=
    List.filter_append_perm _ K
  have hlenp : (K.filter (fun k => (k ∈ processed : Bool))).length = processed.length := by
    refine nodup_length_eq_of_mem_iff (hK.filter _) hp ?_
    intro x
    simp only [List.mem_filter, decide_eq_true_eq]
    constructor
    · rintro ⟨_, hx⟩; exact hx
    · intro hx; exact ⟨hsub x hx, hx⟩
  have hKlen : K.length =
      processed.length + (K.filter (fun k => !(k ∈ processed : Bool))).length := by
    have := hpart.length_eq
    rw [List.length_append, hlenp] at this
    omega
  have hne : (K.filter (fun k => k ∉ processed)) = K.filter (fun k => !(k ∈ processed : Bool)) := by
    apply List.filter_congr
    intro x _
    by_cases hx : x ∈ processed <;> simp [hx]
  rw [hne]
  constructor
  · intro hlt hnil
    rw [hnil] at hKlen
    simp at hKlen
    omega
  · intro hnil
    have : (K.filter (fun k => !(k ∈ processed : Bool))).length ≠ 0 := by
      intro h0
      exact hnil (List.eq_nil_of_length_eq_zero h0)
    omega

/-! ### Relationship inference: the fold characterization -/

theorem firstDedupAux_congr {α : Type} [DecidableEq α] (l : List α)
    {s₁ s₂ : List α} (h : ∀ x, x ∈ s₁ ↔ x ∈ s₂) :
    firstDedupAux l s₁ = firstDedupAux l s₂ := by
  induction l generalizing s₁ s₂ with
  | nil => rfl
  | cons a rest ih =>
    by_cases ha : a ∈ s₁
    · rw [firstDedupAux, if_pos ha, firstDedupAux, if_pos ((h a).mp ha)]
      exact ih h
    · rw [firstDedupAux, if_neg ha, firstDedupAux, if_neg (fun hm => ha ((h a).mpr hm))]
      congr 1
      refine ih ?_
      intro x
      simp only [List.mem_cons]
      exact or_congr Iff.rfl (h x)

theorem inferStep_eq (g : Graph) (st : List (String × String) × List Edge) (e : Edge) :
    inferStep g st e
      = match resolvedPair g e with
        | none => st
        | some p => if p ∈ st.1 then st else (st.1 ++ [p], st.2 ++ [mkInferredEdge p]) := by
  rw [inferStep, resolvedPair]
  rcases resolvedTableId g e.source with _ | s <;>
    rcases resolvedTableId g e.target with _ | t <;> try rfl
  by_cases hst : s ≠ t <;> simp [hst, mkInferredEdge]

theorem inferStep_fold (g : Graph) (es : List Edge)
    (seen : List (String × String)) (acc : List Edge) :
    (es.foldl (inferStep g) (seen, acc)).2
      = acc ++ (firstDedupAux (es.filterMap (resolvedPair g)) seen).map mkInferredEdge := by
  induction es generalizing seen acc with
  | nil => simp [firstDedupAux]
  | cons e rest ih =>
    rw [List.foldl_cons, List.filterMap_cons, inferStep_eq]
    rcases hp : resolvedPair g e with _ | p <;> simp only [hp]
    · exact ih seen acc
    · by_cases hmem : p ∈ seen
      · rw [if_pos hmem, ih seen acc, firstDedupAux, if_pos hmem]
      · rw [if_neg hmem, ih (seen ++ [p]) (acc ++ [mkInferredEdge p]),
          firstDedupAux, if_neg hmem,
          @firstDedupAux_congr _ _ (rest.filterMap (resolvedPair g))
            (seen ++ [p]) (p :: seen) (by intro x; simp; tauto)]
        simp

theorem resolvedPair_ne {g : Graph} {e : Edge} {p : String × String}
    (h : resolvedPair g e = some p) : p.1 ≠ p.2 := by
  rw [resolvedPair] at h
  split at h
  · rename_i s t _ _
    split at h
    · cases Option.some.inj h
      assumption
    · exact absurd h (by simp)
  · exact absurd h (by simp)

/-- **C7.** `inferTableRelationships` emits one table-table edge per
resolved ordered pair of distinct owning tables, in order of the pair's
first occurrence among the graph's edges (unresolvable edges are dropped by
`resolvedPair`); the emitted pair list is duplicate-free, every emitted
edge has distinct endpoints and the inferred type, and — the embedding
being a pure function of the graph — repeated application to the unchanged
graph yields the identical sequence. -/
theorem infer_dedup_first_occurrence (g : Graph) :
    inferTableRelationships g
        = (firstDedup (g.edges.filterMap (resolvedPair g))).map mkInferredEdge
      ∧ ((inferTableRelationships g).map pairOf).Nodup
      ∧ (∀ e ∈ inferTableRelationships g, e.source ≠ e.target ∧ e.type = "table-table")
      ∧ inferTableRelationships g = inferTableRelationships g := by
  have hmain : inferTableRelationships g
      = (firstDedup (g.edges.filterMap (resolvedPair g))).map mkInferredEdge := by
    rw [inferTableRelationships, inferStep_fold g g.edges [] []]
    rfl
  refine ⟨hmain, ?_, ?_, rfl⟩
  · rw [hmain]
    have hcomp : ∀ p : String × String, pairOf (mkInferredEdge p) = p := by
      intro p; rfl
    rw [List.map_map]
    have : (pairOf ∘ mkInferredEdge) = id := funext hcomp
    rw [this, List.map_id]
    exact nodup_firstDedup _
  · intro e he
    rw [hmain] at he
    obtain ⟨p, hp, rfl⟩ := List.mem_map.mp he
    have hp' : p ∈ g.edges.filterMap (resolvedPair g) := mem_firstDedup.mp hp
    obtain ⟨e', _, he'⟩ := List.mem_filterMap.mp hp'
    exact ⟨resolvedPair_ne he', rfl⟩

end LineageMap

namespace LineageMap

/-! ### Claim C10 and the concrete validator scenario (C6) -/

/-- C10: in `getOptimalTableY`, an edge counts as incoming to table `A`
because its target id `AB:x` merely starts with `A` (here `A` is a proper
prefix of the distinct table id `AB`, and no edge targets a field whose
`tableId` is `A`), and the sources are grouped by the substring before the
first `:` (both sources share the prefix `S`, so the single-upstream-table
minimum branch fires and returns `30`) even though their nodes' owning
`tableId`s are the distinct `Q1` and `Q2`, under which the average
`(50+30)/2 = 40` would have been returned instead. -/
theorem optimalY_prefix_and_colon_grouping :
    charsPrefix "A".data "AB".data = true ∧ "A" ≠ "AB"
      ∧ (gC10.edges.all (fun e =>
          match findNode gC10 e.target with
          | some n => n.tableId ≠ some "A"
          | none => true)) = true
      ∧ getOptimalTableY gC10 "A" posC10 = some 30
      ∧ resolvedTableId gC10 "S:a" = some "Q1" ∧ resolvedTableId gC10 "S:b" = some "Q2"
      ∧ some ((30 : ℚ)) ≠ some (((50 : ℚ) + 30) / 2) := by
  with_unfolding_all decide

/-- C6 counterexample: on the claimed scenario graph `gC6`, the validator
reports two discrepancies for `D:D1` (`A:A1` and `B:B1` both have edges but
are unused in the transformation), not exactly one as claimed. -/
theorem validate_scenario_two_discrepancies :
    mapLookup (validateTransformations gC6) "D:D1"
        = some [msgUnused "A:A1", msgUnused "B:B1"]
      ∧ ((mapLookup (validateTransformations gC6) "D:D1").getD []).length ≠ 1 := by
  decide

/-- C6 amended: on the scenario graph `gC6` the validator reports exactly
two discrepancies, both for field `D:D1` — `A:A1` has an edge but is not
used in the transformation, and `B:B1` has an edge but is not used in the
transformation — and no discrepancy for any other field. -/
theorem validate_scenario_report :
    validateTransformations gC6 = [("D:D1", [msgUnused "A:A1", msgUnused "B:B1"])] := by
  decide

/-! ### Counterexamples to the level-assignment claims C1 and C2 -/

/-- C1 counterexample: `gC1`'s inferred edges `A→B`, `B→G` are acyclic, the
edge `A→B` is inferred, and both `A` and `B` receive level `1`, so
`level(A) < level(B)` fails. -/
theorem levels_acyclic_ghost_counterexample :
    AcyclicPairs ((inferTableRelationships gC1).map pairOf)
      ∧ mkInferredEdge ("A", "B") ∈ inferTableRelationships gC1
      ∧ getTableLevels gC1
          = [⟨"A", 1, ["B"]⟩, ⟨"B", 1, ["G"]⟩]
      ∧ ¬ ((1 : Int) < 1) :=
  ⟨⟨rankC1, by decide⟩, by decide, by decide, by decide⟩

/-- C2 counterexample: in `gC2` the table `X` participates in inferred
edges (`X→Y`, `Y→X`), yet its final level is `0`, because the cycle
fallback round `2` exceeds the final `maxLevel = 1` and the remap
`maxLevel − level + 1` sends it to `0`. -/
theorem level_zero_cycle_counterexample :
    hasInferredEdge gC2 "X" = true
      ∧ getTableLevels gC2
          = [⟨"X", 0, ["Y"]⟩, ⟨"Y", 0, ["X", "B"]⟩, ⟨"B", 1, []⟩] := by
  decide

end LineageMap

namespace LineageMap

/-! ### Claim C9: totality of the position map -/

theorem mapLookup_none_iff {κ α : Type} [DecidableEq κ] {m : List (κ × α)} {k : κ} :
    mapLookup m k = none ↔ m.any (fun p => p.1 = k) = false := by
  rw [mapLookup]
  rcases h : m.find? (fun p => p.1 = k) with _ | p <;> rw [h]
  · simp only [List.find?_eq_none] at h
    simp only [List.any_eq_false]
    constructor
    · intro _ p hp
      simpa using h p hp
    · intro _; trivial
  · have hmem := List.mem_of_find?_eq_some h
    have hpk : p.1 = k := by simpa using List.find?_some h
    constructor
    · intro hc; exact absurd hc (by simp)
    · intro hfalse
      exfalso
      have htrue : m.any (fun q => q.1 = k) = true :=
        List.any_eq_true.mpr ⟨p, hmem, by simpa using hpk⟩
      rw [hfalse] at htrue
      exact Bool.false_ne_true htrue

theorem mapLookup_singleton_self {κ α : Type} [DecidableEq κ] (k : κ) (v : α) :
    mapLookup [(k, v)] k = some v := by
  rw [mapLookup]
  rw [List.find?_cons_of_pos _ (by simp)]

theorem mapLookup_singleton_ne {κ α : Type} [DecidableEq κ] {k k' : κ} (v : α)
    (h : ¬ k' = k) : mapLookup [(k', v)] k = none := by
  rw [mapLookup]
  rw [List.find?_cons_of_neg _ (by simpa using h)]
  rfl

theorem mapSet_absent {κ α : Type} [DecidableEq κ] {m : List (κ × α)} {k : κ} {v : α}
    (h : mapLookup m k = none) : mapSet m k v = m ++ [(k, v)] := by
  rw [mapSet, if_neg]
  rw [mapLookup_none_iff] at h
  simp [h]

theorem mapLookup_append_left {κ α : Type} [DecidableEq κ] {m₁ m₂ : List (κ × α)} {k : κ} {v : α}
    (h : mapLookup m₁ k = some v) : mapLookup (m₁ ++ m₂) k = some v := by
  rw [mapLookup] at h ⊢
  rcases hf : m₁.find? (fun p => p.1 = k) with _ | p
  · rw [hf] at h; exact absurd h (by simp)
  · rw [hf] at h
    rw [List.find?_append, hf]
    simpa using h

theorem mapLookup_append_right {κ α : Type} [DecidableEq κ] {m₁ m₂ : List (κ × α)} {k : κ}
    (h : mapLookup m₁ k = none) : mapLookup (m₁ ++ m₂) k = mapLookup m₂ k := by
  rw [mapLookup] at h ⊢
  rcases hf : m₁.find? (fun p => p.1 = k) with _ | p
  · rw [List.find?_append, hf]
    rfl
  · rw [hf] at h; exact absurd h (by simp)

theorem defaultStep_preserves {pm : List (String × Position)} {k : String} {v : Position}
    (n : Node) (h : mapLookup pm k = some v) : mapLookup (defaultStep pm n) k = some v := by
  rw [defaultStep]
  by_cases hn : (mapLookup pm n.id).isSome
  · rw [if_pos hn]; exact h
  · rw [if_neg hn]
    rw [mapSet_absent (Option.not_isSome_iff_eq_none.mp hn)]
    exact mapLookup_append_left h

theorem defaults_fold_preserves {ns : List Node} {pm : List (String × Position)}
    {k : String} {v : Position} (h : mapLookup pm k = some v) :
    mapLookup (ns.foldl defaultStep pm) k = some v := by
  induction ns generalizing pm with
  | nil => exact h
  | cons m rest ih => exact ih (defaultStep_preserves m h)

theorem defaults_fold_total {ns : List Node} {pm : List (String × Position)} {k : String}
    (h : ∃ n ∈ ns, n.id = k) :
    mapLookup (ns.foldl defaultStep pm) k = some ((mapLookup pm k).getD ⟨0, 0⟩) := by
  induction ns generalizing pm with
  | nil => simp at h
  | cons m rest ih =>
    rw [List.foldl_cons]
    by_cases hrest : ∃ n ∈ rest, n.id = k
    · have hstepk : mapLookup (defaultStep pm m) k = mapLookup pm k
          ∨ (mapLookup pm k = none ∧ mapLookup (defaultStep pm m) k = some ⟨0, 0⟩) := by
        rw [defaultStep]
        by_cases hm : (mapLookup pm m.id).isSome
        · exact Or.inl (by rw [if_pos hm])
        · rw [if_neg hm, mapSet_absent (Option.not_isSome_iff_eq_none.mp hm)]
          by_cases hk : k = m.id
          · subst hk
            refine Or.inr ⟨Option.not_isSome_iff_eq_none.mp hm, ?_⟩
            rw [mapLookup_append_right (Option.not_isSome_iff_eq_none.mp hm),
              mapLookup_singleton_self]
          · rcases hv : mapLookup pm k with _ | v
            · refine Or.inl ?_
              rw [mapLookup_append_right hv,
                mapLookup_singleton_ne _ (fun h' => hk h'.symm)]
            · exact Or.inl (by rw [mapLookup_append_left hv])
      rcases hstepk with heq | ⟨hnone, hzero⟩
      · rw [ih hrest, heq]
      · rw [ih hrest, hzero, hnone]
        rfl
    · obtain ⟨n, hn, hnk⟩ := h
      rcases List.mem_cons.mp hn with rfl | hn'
      · subst hnk
        rcases hv : mapLookup pm n.id with _ | v
        · have hstep : defaultStep pm n = pm ++ [(n.id, ⟨0, 0⟩)] := by
            rw [defaultStep, if_neg (by rw [hv]; simp), mapSet_absent hv]
          rw [hstep]
          have hlook : mapLookup (pm ++ [(n.id, (⟨0, 0⟩ : Position))]) n.id
              = some ⟨0, 0⟩ := by
            rw [mapLookup_append_right hv, mapLookup_singleton_self]
          rw [defaults_fold_preserves hlook]
          rfl
        · have hstep : defaultStep pm n = pm := by
            rw [defaultStep, if_pos (by rw [hv]; simp)]
          rw [hstep, defaults_fold_preserves hv]
          rfl
      · exact absurd ⟨n, hn', hnk⟩ hrest

/-- C9: for every node of the graph, `calculatePositions` maps the node's
id to a position; the position is the one computed by the level-driven main
pass when that pass placed the node, and the default `(0, 0)` otherwise. -/
theorem positions_total_with_default (g : Graph) (tls : List TableLevel)
    (expanded : List String) (opts : LayoutOptions) :
    ∀ n ∈ g.nodes,
      mapLookup (calculatePositions g tls expanded opts) n.id
        = some ((mapLookup (positionsMain g tls expanded opts) n.id).getD ⟨0, 0⟩) := by
  intro n hn
  rw [calculatePositions]
  exact defaults_fold_total ⟨n, hn, rfl⟩

/-- C9 witness: in the concrete layout of `gC4`, the never-placed field
`S2:b` (its table is collapsed) is defaulted to `(0, 0)`, per the theorem
applied at that node. -/
theorem positions_total_witness :
    mapLookup (calculatePositions gC4 tlsC4 ["S1"] optsC4) "S2:b"
      = some ((mapLookup (positionsMain gC4 tlsC4 ["S1"] optsC4) "S2:b").getD ⟨0, 0⟩) :=
  positions_total_with_default gC4 tlsC4 ["S1"] optsC4 (nF "S2:b" "S2") (by decide)

end LineageMap

namespace LineageMap

/-! ### Claim C4: the first-table anchoring computation -/

theorem seen_swap {α : Type} [DecidableEq α] (l t : List α) (a : α) :
    firstDedupAux l (t ++ [a]) = firstDedupAux l (a :: t) :=
  firstDedupAux_congr l (by intro x; simp; tauto)

theorem insert_dedup_assoc {α : Type} [DecidableEq α] (t : List α) (a : α) (l : List α) :
    insertIfAbsent t a ++ firstDedupAux l (insertIfAbsent t a)
      = t ++ firstDedupAux (a :: l) t := by
  by_cases h : a ∈ t
  · rw [insertIfAbsent, if_pos h, firstDedupAux, if_pos h]
  · rw [insertIfAbsent, if_neg h, firstDedupAux, if_neg h, seen_swap,
      List.append_assoc, List.singleton_append]

theorem minFold_some (m : ℚ) (l : List ℚ) : minFold (some m) l = some (l.foldl min m) := by
  induction l generalizing m with
  | nil => rfl
  | cons x xs ih =>
    have hacc : (if x < m then some x else some m) = some (min m x) := by
      rcases lt_or_ge x m with h | h
      · rw [if_pos h, min_eq_right h.le]
      · rw [if_neg (not_lt.mpr h), min_eq_left h]
    have hstep : minFold (some m) (x :: xs) = minFold (some (min m x)) xs := by
      show minFold (if x < m then some x else some m) xs = minFold (some (min m x)) xs
      rw [hacc]
    rw [hstep, ih, List.foldl_cons]

theorem minFold_none_eq_minQ (l : List ℚ) : minFold none l = minQ l := by
  rcases l with _ | ⟨x, xs⟩
  · rfl
  · rw [minQ]
    have : minFold none (x :: xs) = minFold (some x) xs := by
      rw [minFold, List.foldl_cons]
      rfl
    rw [this, minFold_some]

theorem optStep_fold_spec (positions : List (String × Position)) (es : List Edge) :
    ∀ st : OptState,
    es.foldl (optStep positions) st
      = ⟨st.edgeSrc ++ firstDedupAux (es.map (fun e => e.source)) st.edgeSrc,
         st.tabSet ++ firstDedupAux (es.map (fun e => beforeColon e.source)) st.tabSet,
         st.totalY
           + ((firstDedupAux (es.map (fun e => e.source)) st.edgeSrc).filterMap
               (truthyY positions)).sum,
         minFold st.minY
           ((firstDedupAux (es.map (fun e => e.source)) st.edgeSrc).filterMap
             (truthyY positions))⟩ := by
  induction es with
  | nil =>
    intro st
    simp [firstDedupAux, minFold]
  | cons e rest ih =>
    intro st
    rw [List.foldl_cons, List.map_cons, List.map_cons]
    by_cases hseen : e.source ∈ st.edgeSrc
    · have hstep : optStep positions st e
          = { st with tabSet := insertIfAbsent st.tabSet (beforeColon e.source) } := by
        rw [optStep, if_pos hseen]
      rw [hstep, ih]
      rw [show firstDedupAux (e.source :: rest.map (fun e => e.source)) st.edgeSrc
            = firstDedupAux (rest.map (fun e => e.source)) st.edgeSrc by
          rw [firstDedupAux, if_pos hseen]]
      simp only [OptState.mk.injEq, true_and, and_true]
      exact insert_dedup_assoc st.tabSet (beforeColon e.source) _
    · rw [show firstDedupAux (e.source :: rest.map (fun e => e.source)) st.edgeSrc
            = e.source :: firstDedupAux (rest.map (fun e => e.source)) (e.source :: st.edgeSrc) by
          rw [firstDedupAux, if_neg hseen]]
      rcases hlook : mapLookup positions e.source with _ | p
      · have hstep : optStep positions st e
            = { st with tabSet := insertIfAbsent st.tabSet (beforeColon e.source),
                        edgeSrc := st.edgeSrc ++ [e.source] } := by
          rw [optStep, if_neg hseen]
          simp only [hlook]
        have hT : truthyY positions e.source = none := by simp only [truthyY, hlook]
        rw [hstep, ih]
        simp only [OptState.mk.injEq]
        refine ⟨?_, insert_dedup_assoc st.tabSet (beforeColon e.source) _, ?_, ?_⟩
        · rw [seen_swap, List.append_assoc, List.singleton_append]
        · simp only [seen_swap, List.filterMap_cons, hT]
        · simp only [seen_swap, List.filterMap_cons, hT]
      · by_cases hzero : p.y = 0
        · have hstep : optStep positions st e
              = { st with tabSet := insertIfAbsent st.tabSet (beforeColon e.source),
                          edgeSrc := st.edgeSrc ++ [e.source] } := by
            rw [optStep, if_neg hseen]
            simp only [hlook]
            rw [if_pos hzero]
          have hT : truthyY positions e.source = none := by
            simp only [truthyY, hlook, if_pos hzero]
          rw [hstep, ih]
          simp only [OptState.mk.injEq]
          refine ⟨?_, insert_dedup_assoc st.tabSet (beforeColon e.source) _, ?_, ?_⟩
          · rw [seen_swap, List.append_assoc, List.singleton_append]
          · simp only [seen_swap, List.filterMap_cons, hT]
          · simp only [seen_swap, List.filterMap_cons, hT]
        · have hstep : optStep positions st e
              = { st with tabSet := insertIfAbsent st.tabSet (beforeColon e.source),
                          edgeSrc := st.edgeSrc ++ [e.source],
                          totalY := st.totalY + p.y,
                          minY := match st.minY with
                            | none => some p.y
                            | some m => if p.y < m then some p.y else some m } := by
            rw [optStep, if_neg hseen]
            simp only [hlook]
            rw [if_neg hzero]
          have hT : truthyY positions e.source = some p.y := by
            simp only [truthyY, hlook, if_neg hzero]
          rw [hstep, ih]
          simp only [OptState.mk.injEq]
          refine ⟨?_, insert_dedup_assoc st.tabSet (beforeColon e.source) _, ?_, ?_⟩
          · rw [seen_swap, List.append_assoc, List.singleton_append]
          · simp only [seen_swap, List.filterMap_cons, hT, List.sum_cons, add_assoc]
          · simp only [seen_swap, List.filterMap_cons, hT]
            rfl

theorem getOptimalTableY_characterization (g : Graph) (tid : String)
    (positions : List (String × Position)) :
    (incomingOf g tid = [] → getOptimalTableY g tid positions = none)
    ∧ (incomingOf g tid ≠ [] →
       0 < (distinctSources g tid).length
       ∧ getOptimalTableY g tid positions
         = (if (distinctSourceTables g tid).length = 1
            then minQ ((distinctSources g tid).filterMap (truthyY positions))
            else some (((distinctSources g tid).filterMap (truthyY positions)).sum
                 / ((distinctSources g tid).length : ℚ)))) := by
  constructor
  · intro hnil
    rw [incomingOf] at hnil
    rw [getOptimalTableY, if_pos hnil]
  · intro hne
    rw [incomingOf] at hne
    have hfold := optStep_fold_spec positions
      (g.edges.filter (fun e => charsPrefix tid.data e.target.data)) ⟨[], [], 0, none⟩
    constructor
    · rcases hcons : g.edges.filter (fun e => charsPrefix tid.data e.target.data)
        with _ | ⟨e, es⟩
      · exact absurd hcons hne
      · rw [distinctSources, incomingOf, firstDedup, hcons, List.map_cons,
          firstDedupAux, if_neg (by simp)]
        simp
    · rw [getOptimalTableY, if_neg hne, hfold]
      rw [distinctSources, distinctSourceTables, incomingOf, firstDedup,
        minFold_none_eq_minQ (List.filterMap (truthyY positions) (firstDedupAux _ [])),
        zero_add]
      simp [firstDedup]

/-- A placed non-first table advances the cursor by `verticalPadding`, its
effective height, and `verticalPadding` again, and its `y` is the cursor
value `currentY + verticalPadding`; `getOptimalTableY` plays no part. -/
theorem placeRest_cursor (g : Graph) (expanded : List String) (opts : LayoutOptions)
    (levelX : ℚ) (pm : List (String × Position)) (cy : ℚ) (u : String) (n : Node)
    (hfind : findNode g u = some n) :
    placeRest g expanded opts levelX (pm, cy) u
      = ((if u ∈ expanded
          then placeFields g opts u levelX (cy + opts.verticalPadding)
                 (mapSet pm u ⟨levelX, cy + opts.verticalPadding⟩)
          else mapSet pm u ⟨levelX, cy + opts.verticalPadding⟩),
         cy + opts.verticalPadding + effHeight g expanded opts u + opts.verticalPadding) := by
  simp only [placeRest, hfind]

/-- Placing a non-first table is independent of the graph's edges: only the
node list matters. -/
theorem placeRest_ignores_edges (nodes : List Node) (es es' : List Edge)
    (expanded : List String) (opts : LayoutOptions) (levelX : ℚ)
    (st : List (String × Position) × ℚ) (u : String) :
    placeRest ⟨nodes, es⟩ expanded opts levelX st u
      = placeRest ⟨nodes, es'⟩ expanded opts levelX st u := rfl

/-- The first table of a level overrides the sequential cursor with
`getOptimalTableY` whenever the latter is non-null. -/
theorem placeFirst_override (g : Graph) (expanded : List String) (opts : LayoutOptions)
    (levelX : ℚ) (pm : List (String × Position)) (cy : ℚ) (t : String) (n : Node)
    (hfind : findNode g t = some n) (yv : ℚ)
    (hy : (match getOptimalTableY g t pm with
           | some v => v
           | none => cy + opts.verticalPadding) = yv) :
    placeFirst g expanded opts levelX (pm, cy) t
      = ((if t ∈ expanded
          then placeFields g opts t levelX yv (mapSet pm t ⟨levelX, yv⟩)
          else mapSet pm t ⟨levelX, yv⟩),
         yv + effHeight g expanded opts t + opts.verticalPadding) := by
  simp only [placeFirst, hfind, hy]

end LineageMap

namespace LineageMap

/-- C4 counterexample: in the concrete layout of `gC4`, the first (and
only) table `T` of level 2 has the two distinct sources `S1:a` and `S2:b`;
only `S1:a` has an already-computed position, at `y = 60`, so the claimed
"average of the distinct source fields' already-computed y positions" is
`60` — but the code divides the sum of computed positions by the number of
all distinct sources and places `T` at `y = 30`. -/
theorem optimalY_average_counterexample :
    distinctSources gC4 "T" = ["S1:a", "S2:b"]
      ∧ mapLookup (calculatePositions gC4 tlsC4 ["S1"] optsC4) "S1:a" = some ⟨180, 60⟩
      ∧ mapLookup (calculatePositions gC4 tlsC4 ["S1"] optsC4) "S2:b" = some ⟨0, 0⟩
      ∧ mapLookup (calculatePositions gC4 tlsC4 ["S1"] optsC4) "T" = some ⟨360, 30⟩
      ∧ ((30 : ℚ) ≠ 60) := by
  with_unfolding_all decide

/-- C4 amended: in the position calculator, only the first table of a level
is special-cased.  Writing `incoming` for the edges whose target id starts
with the table id, `D` for their distinct sources and `tabs` for the
distinct colon-prefix source tables: with no incoming edge the anchor is
`none`; otherwise the divisor `|D|` is positive (no division by zero) and
the anchor is the minimum of the distinct sources' computed non-zero `y`
values when `|tabs| = 1` (`none` when no such value exists), and otherwise
the sum of those computed values divided by the number of all distinct
sources — sources with no computed or zero `y` count only in the
denominator.  A found first table takes the anchor as its `y` when non-null
and behaves exactly like a non-first table when null; a found non-first
table always takes the cursor `y` and its placement ignores the graph's
edges entirely. -/
theorem first_table_anchoring (g : Graph) (tid : String)
    (positions : List (String × Position)) (expanded : List String)
    (opts : LayoutOptions) (levelX : ℚ) (pm : List (String × Position)) (cy : ℚ)
    (u : String) (n : Node) :
    (incomingOf g tid = [] → getOptimalTableY g tid positions = none)
    ∧ (incomingOf g tid ≠ [] →
       0 < (distinctSources g tid).length
       ∧ getOptimalTableY g tid positions
         = (if (distinctSourceTables g tid).length = 1
            then minQ ((distinctSources g tid).filterMap (truthyY positions))
            else some (((distinctSources g tid).filterMap (truthyY positions)).sum
                 / ((distinctSources g tid).length : ℚ))))
    ∧ (findNode g u = some n →
       (getOptimalTableY g u pm = none →
          placeFirst g expanded opts levelX (pm, cy) u
            = placeRest g expanded opts levelX (pm, cy) u)
       ∧ ∀ v, getOptimalTableY g u pm = some v →
          placeFirst g expanded opts levelX (pm, cy) u
            = ((if u ∈ expanded
                then placeFields g opts u levelX v (mapSet pm u ⟨levelX, v⟩)
                else mapSet pm u ⟨levelX, v⟩),
               v + effHeight g expanded opts u + opts.verticalPadding))
    ∧ (findNode g u = some n →
       placeRest g expanded opts levelX (pm, cy) u
         = ((if u ∈ expanded
             then placeFields g opts u levelX (cy + opts.verticalPadding)
                    (mapSet pm u ⟨levelX, cy + opts.verticalPadding⟩)
             else mapSet pm u ⟨levelX, cy + opts.verticalPadding⟩),
            cy + opts.verticalPadding + effHeight g expanded opts u + opts.verticalPadding))
    ∧ (∀ es' : List Edge,
       placeRest ⟨g.nodes, es'⟩ expanded opts levelX (pm, cy) u
         = placeRest g expanded opts levelX (pm, cy) u) := by
  refine ⟨(getOptimalTableY_characterization g tid positions).1,
    (getOptimalTableY_characterization g tid positions).2, ?_, ?_, ?_⟩
  · intro hfind
    constructor
    · intro hopt
      simp only [placeFirst, placeRest, hfind, hopt]
    · intro v hopt
      simp only [placeFirst, hfind, hopt]
  · intro hfind
    exact placeRest_cursor g expanded opts levelX pm cy u n hfind
  · intro es'
    rcases g with ⟨nodes, edges⟩
    rfl

/-- C4 witness: the amended statement applied to the concrete layout state
of `gC4` when its level-2 table `T` is placed (positions `posW`), and to the
non-first table `S2` of level 1. -/
theorem first_table_anchoring_witness :
    (0 < (distinctSources gC4 "T").length
     ∧ getOptimalTableY gC4 "T" posW
       = (if (distinctSourceTables gC4 "T").length = 1
          then minQ ((distinctSources gC4 "T").filterMap (truthyY posW))
          else some (((distinctSources gC4 "T").filterMap (truthyY posW)).sum
               / ((distinctSources gC4 "T").length : ℚ))))
    ∧ placeRest gC4 ["S1"] optsC4 180 (posW, 110) "S2"
        = ((mapSet posW "S2" ⟨180, 130⟩),
           110 + optsC4.verticalPadding + effHeight gC4 ["S1"] optsC4 "S2"
             + optsC4.verticalPadding) := by
  refine ⟨(first_table_anchoring gC4 "T" posW ["S1"] optsC4 180 posW 110 "S2"
      (nT "S2")).2.1 (by decide), ?_⟩
  rw [(first_table_anchoring gC4 "T" posW ["S1"] optsC4 180 posW 110 "S2"
      (nT "S2")).2.2.2.1 (by decide)]
  rw [if_neg (by decide)]
  norm_num [optsC4]

end LineageMap

namespace LineageMap

/-! ### Claim C5: the validation report -/

theorem mem_mapSet {κ α : Type} [DecidableEq κ] {m : List (κ × α)} {k : κ} {v : α}
    {p : κ × α} (h : p ∈ mapSet m k v) : p ∈ m ∨ p = (k, v) := by
  rw [mapSet] at h
  by_cases hany : m.any (fun q => q.1 = k)
  · rw [if_pos hany] at h
    obtain ⟨q, hq, hfq⟩ := List.mem_map.mp h
    by_cases hqk : q.1 = k
    · rw [if_pos hqk] at hfq
      exact Or.inr hfq.symm
    · rw [if_neg hqk] at hfq
      exact Or.inl (hfq ▸ hq)
  · rw [if_neg hany] at h
    rcases List.mem_append.mp h with h | h
    · exact Or.inl h
    · exact Or.inr (List.mem_singleton.mp h)

theorem find?_map_replace {κ α : Type} [DecidableEq κ] {m : List (κ × α)} {k : κ} {v : α}
    (hany : m.any (fun q => q.1 = k) = true) :
    (m.map (fun p => if p.1 = k then (k, v) else p)).find? (fun p => p.1 = k)
      = some (k, v) := by
  induction m with
  | nil => simp at hany
  | cons q qs ih =>
    rw [List.map_cons]
    by_cases hqk : q.1 = k
    · rw [if_pos hqk, List.find?_cons_of_pos _ (by simp)]
    · rw [if_neg hqk, List.find?_cons_of_neg _ (by simpa using hqk)]
      refine ih ?_
      rcases List.any_eq_true.mp hany with ⟨r, hr, hrk⟩
      rcases List.mem_cons.mp hr with rfl | hr'
      · exact absurd (by simpa using hrk) hqk
      · exact List.any_eq_true.mpr ⟨r, hr', hrk⟩

theorem mapLookup_mapSet_self {κ α : Type} [DecidableEq κ] (m : List (κ × α)) (k : κ) (v : α) :
    mapLookup (mapSet m k v) k = some v := by
  rw [mapSet]
  by_cases hany : m.any (fun q => q.1 = k)
  · rw [if_pos hany, mapLookup, find?_map_replace hany]
  · rw [if_neg hany, mapLookup, List.find?_append]
    have hnone : m.find? (fun p => p.1 = k) = none := by
      rw [List.find?_eq_none]
      intro p hp
      simp only [decide_eq_true_eq]
      intro hpk
      exact hany (List.any_eq_true.mpr ⟨p, hp, by simpa using hpk⟩)
    rw [hnone]
    simp [List.find?_cons_of_pos]

theorem find?_map_replace_ne {κ α : Type} [DecidableEq κ] {m : List (κ × α)}
    {k k' : κ} {v : α} (h : ¬ k = k') :
    (m.map (fun p => if p.1 = k then (k, v) else p)).find? (fun p => p.1 = k')
      = (m.find? (fun p => p.1 = k')).map (fun p => if p.1 = k then (k, v) else p) := by
  induction m with
  | nil => rfl
  | cons q qs ih =>
    rw [List.map_cons]
    by_cases hq' : q.1 = k'
    · have hqk : ¬ q.1 = k := fun hc => h (by rw [← hc, hq'])
      rw [if_neg hqk, List.find?_cons_of_pos _ (by simpa using hq'),
        List.find?_cons_of_pos _ (by simpa using hq')]
      simp [hqk]
    · by_cases hqk : q.1 = k
      · rw [if_pos hqk, List.find?_cons_of_neg _ (by simpa using h),
          List.find?_cons_of_neg _ (by simpa using hq')]
        exact ih
      · rw [if_neg hqk, List.find?_cons_of_neg _ (by simpa using hq'),
          List.find?_cons_of_neg _ (by simpa using hq')]
        exact ih

theorem mapLookup_mapSet_ne {κ α : Type} [DecidableEq κ] (m : List (κ × α)) {k k' : κ}
    (v : α) (h : ¬ k = k') : mapLookup (mapSet m k v) k' = mapLookup m k' := by
  rw [mapSet]
  by_cases hany : m.any (fun q => q.1 = k)
  · rw [if_pos hany, mapLookup, mapLookup, find?_map_replace_ne h]
    rcases hf : m.find? (fun p => p.1 = k') with _ | p
    · rw [hf]
      rfl
    · rw [hf]
      have hpk' : p.1 = k' := by simpa using List.find?_some hf
      have hpk : ¬ p.1 = k := fun hc => h (by rw [← hc, hpk'])
      simp [hpk]
  · rw [if_neg hany, mapLookup, mapLookup, List.find?_append]
    have h1 : List.find? (fun p => p.1 = k') [(k, v)] = none := by
      rw [List.find?_cons_of_neg _ (by simpa using h)]
      rfl
    rw [h1, Option.or_none]

theorem incStep_fold (es : List Edge) :
    ∀ (m : List (String × List String)) (t : String),
    (mapLookup (es.foldl incStep m) t).getD []
      = ((es.filter (fun e => e.target = t)).map (fun e => e.source)).foldl
          insertIfAbsent ((mapLookup m t).getD []) := by
  induction es with
  | nil => intro m t; rfl
  | cons e rest ih =>
    intro m t
    rw [List.foldl_cons]
    by_cases ht : e.target = t
    · subst ht
      rw [show (e :: rest).filter (fun e' => e'.target = e.target)
            = e :: rest.filter (fun e' => e'.target = e.target) by
          rw [List.filter_cons_of_pos (by simp)],
        List.map_cons, List.foldl_cons]
      rcases hm : mapLookup m e.target with _ | s
      · have hstep : incStep m e = mapSet m e.target (insertIfAbsent [] e.source) := by
          rw [incStep, hm]
        rw [hstep, ih, mapLookup_mapSet_self]
        rfl
      · have hstep : incStep m e = mapSet m e.target (insertIfAbsent s e.source) := by
          rw [incStep, hm]
        rw [hstep, ih, mapLookup_mapSet_self]
        rfl
    · rw [show (e :: rest).filter (fun e' => e'.target = t)
            = rest.filter (fun e' => e'.target = t) by
          rw [List.filter_cons_of_neg (by simpa using ht)]]
      rw [ih]
      have hkeep : mapLookup (incStep m e) t = mapLookup m t := by
        rw [incStep]
        rcases hm : mapLookup m e.target with _ | s
        · exact mapLookup_mapSet_ne m _ ht
        · exact mapLookup_mapSet_ne m _ ht
      rw [hkeep]

theorem foldl_insertIfAbsent {α : Type} [DecidableEq α] (l t : List α) :
    l.foldl insertIfAbsent t = t ++ firstDedupAux l t := by
  induction l generalizing t with
  | nil => simp [firstDedupAux]
  | cons a rest ih =>
    rw [List.foldl_cons, ih, firstDedupAux]
    by_cases ha : a ∈ t
    · rw [if_pos ha, insertIfAbsent, if_pos ha]
    · rw [if_neg ha, insertIfAbsent, if_neg ha, seen_swap,
        List.append_assoc, List.singleton_append]

theorem incomingIndex_lookup (edges : List Edge) (t : String) :
    (mapLookup (incomingIndex edges) t).getD [] = incomingSources edges t := by
  rw [incomingIndex, incStep_fold edges [] t, incomingSources]
  rw [show mapLookup ([] : List (String × List String)) t = none from rfl]
  rw [foldl_insertIfAbsent]
  rfl

theorem errsOf_eq (g : Graph) (nid tr : String) :
    errsOf g nid tr
      = ((firstDedup (scanTokens tr)).filter
            (fun r => r ∉ incomingSources g.edges nid)).map (fun r => msgNoEdge r nid)
        ++ ((incomingSources g.edges nid).filter
            (fun s => s ∉ firstDedup (scanTokens tr))).map (fun s => msgUnused s) := by
  rw [errsOf, incomingIndex_lookup]

theorem validate_fold_values {g : Graph} {ns : List Node}
    {m : List (String × List String)} (hm : ∀ p ∈ m, p.2 ≠ []) :
    ∀ p ∈ ns.foldl (vstep g) m, p.2 ≠ [] := by
  induction ns generalizing m with
  | nil => exact hm
  | cons n rest ih =>
    rw [List.foldl_cons]
    refine ih ?_
    intro p hp
    rcases htype : n.type with _ | _ <;>
      rcases htr : truthyStr n.transformation with _ | tr <;>
      simp only [vstep, htype, htr] at hp
    · exact hm p hp
    · exact hm p hp
    · exact hm p hp
    · by_cases hE : errsOf g n.id tr = []
      · rw [if_pos hE] at hp
        exact hm p hp
      · rw [if_neg hE] at hp
        rcases mem_mapSet hp with h | rfl
        · exact hm p h
        · exact hE

theorem validate_fold_untouched {g : Graph} {ns : List Node} {k : String}
    (hk : ∀ n ∈ ns, n.id ≠ k) (m : List (String × List String)) :
    mapLookup (ns.foldl (vstep g) m) k = mapLookup m k := by
  induction ns generalizing m with
  | nil => rfl
  | cons n rest ih =>
    rw [List.foldl_cons]
    rw [ih (fun n' hn' => hk n' (List.mem_cons_of_mem _ hn'))]
    rcases htype : n.type with _ | _ <;>
      rcases htr : truthyStr n.transformation with _ | tr <;>
      simp only [vstep, htype, htr]
    by_cases hE : errsOf g n.id tr = []
    · rw [if_pos hE]
    · rw [if_neg hE]
      exact mapLookup_mapSet_ne m _ (hk n (List.mem_cons_self n rest))

theorem validate_fold_lookup {g : Graph} {ns : List Node} {n : Node}
    (hn : n ∈ ns) (hN : (ns.map (fun n' => n'.id)).Nodup)
    (m : List (String × List String)) (hm : mapLookup m n.id = none) :
    mapLookup (ns.foldl (vstep g) m) n.id = expectedEntry g n := by
  induction ns generalizing m with
  | nil => simp at hn
  | cons n0 rest ih =>
    rw [List.map_cons, List.nodup_cons] at hN
    rw [List.foldl_cons]
    rcases List.mem_cons.mp hn with rfl | hn'
    · have hrest : ∀ n' ∈ rest, n'.id ≠ n.id := by
        intro n' hn' hc
        exact hN.1 (hc ▸ List.mem_map_of_mem (fun x => x.id) hn')
      rw [validate_fold_untouched hrest]
      rcases htype : n.type with _ | _ <;>
        rcases htr : truthyStr n.transformation with _ | tr <;>
        simp only [vstep, expectedEntry, htype, htr]
      · exact hm
      · exact hm
      · exact hm
      · rw [errsOf_eq]
        by_cases hE : ((firstDedup (scanTokens tr)).filter
              (fun r => r ∉ incomingSources g.edges n.id)).map (fun r => msgNoEdge r n.id)
            ++ ((incomingSources g.edges n.id).filter
              (fun s => s ∉ firstDedup (scanTokens tr))).map (fun s => msgUnused s) = []
        · rw [if_pos hE, if_pos hE]
          exact hm
        · rw [if_neg hE, if_neg hE]
          exact mapLookup_mapSet_self m n.id _
    · have hne : n0.id ≠ n.id := by
        intro hc
        exact hN.1 (hc ▸ List.mem_map_of_mem (fun x => x.id) hn')
      refine ih hn' hN.2 _ ?_
      rcases htype : n0.type with _ | _ <;>
        rcases htr : truthyStr n0.transformation with _ | tr <;>
        simp only [vstep, htype, htr] <;> try exact hm
      by_cases hE : errsOf g n0.id tr = []
      · rw [if_pos hE]; exact hm
      · rw [if_neg hE, mapLookup_mapSet_ne m _ hne]
        exact hm

/-- C5: for every graph with unique node ids, the validation report never
maps a field id to an empty list, and the entry of each node is exactly the
predicted one: absent unless the node is a field with a truthy
transformation and a non-empty discrepancy list, and otherwise exactly one
message per deduplicated referenced token absent from the incoming-source
set followed by exactly one message per incoming source absent from the
referenced-token set (both sets duplicate-free). -/
theorem validate_report_characterization (g : Graph)
    (hN : (g.nodes.map (fun n => n.id)).Nodup) :
    (∀ p ∈ validateTransformations g, p.2 ≠ [])
    ∧ ∀ n ∈ g.nodes,
        mapLookup (validateTransformations g) n.id = expectedEntry g n := by
  constructor
  · exact validate_fold_values (by intro p hp; simp at hp)
  · intro n hn
    exact validate_fold_lookup hn hN [] rfl

/-- C5 witness: the characterization applied to the scenario graph `gC6`
and its field `D:D1`. -/
theorem validate_report_witness :
    mapLookup (validateTransformations gC6) "D:D1"
      = expectedEntry gC6 ⟨"D:D1", NodeType.field, "D1", some "D", some "A:A7 + C:C1"⟩ :=
  (validate_report_characterization gC6 (by decide)).2
    ⟨"D:D1", NodeType.field, "D1", some "D", some "A:A7 + C:C1"⟩ (by decide)

end LineageMap

namespace LineageMap

/-! ### Claim C8: the upstream closure -/

theorem traverseUp_succ (edges : List Edge) (fuel : Nat) (id : String)
    (st : List String × List String) :
    traverseUp edges (fuel + 1) id st
      = if id ∈ st.2 then st
        else edges.foldl (traverseStep edges fuel id) (st.1, st.2 ++ [id]) := rfl

theorem foldl_invariant {α β : Type} (f : β → α → β) (P : β → Prop) (l : List α)
    (init : β) (h0 : P init) (hstep : ∀ b a, a ∈ l → P b → P (f b a)) :
    P (l.foldl f init) := by
  induction l generalizing init with
  | nil => exact h0
  | cons a rest ih =>
    rw [List.foldl_cons]
    exact ih (f init a) (hstep init a (List.mem_cons_self a rest) h0)
      (fun b a' ha' hb => hstep b a' (List.mem_cons_of_mem _ ha') hb)

theorem traverse_mono (edges : List Edge) :
    ∀ (fuel : Nat) (id : String) (st : List String × List String),
    st.1 ⊆ (traverseUp edges fuel id st).1 ∧ st.2 ⊆ (traverseUp edges fuel id st).2 := by
  intro fuel
  induction fuel with
  | zero => intro id st; exact ⟨fun _ h => h, fun _ h => h⟩
  | succ fuel ih =>
    intro id st
    rw [traverseUp_succ]
    by_cases hv : id ∈ st.2
    · rw [if_pos hv]
      exact ⟨fun _ h => h, fun _ h => h⟩
    · rw [if_neg hv]
      refine foldl_invariant (traverseStep edges fuel id)
        (fun acc => st.1 ⊆ acc.1 ∧ st.2 ⊆ acc.2) edges (st.1, st.2 ++ [id])
        ⟨fun _ h => h, fun x h => List.mem_append_left _ h⟩ ?_
      intro acc e _ hacc
      rw [traverseStep]
      by_cases ht : e.target = id
      · rw [if_pos ht]
        obtain ⟨h1, h2⟩ := ih e.source (insertIfAbsent acc.1 e.source, acc.2)
        constructor
        · intro x hx
          exact h1 (mem_insertIfAbsent.mpr (Or.inl (hacc.1 hx)))
        · intro x hx
          exact h2 (hacc.2 hx)
      · rw [if_neg ht]; exact hacc

theorem traverse_sound (edges : List Edge) (f : String) :
    ∀ (fuel : Nat) (id : String) (st : List String × List String),
    UpReach edges f id →
    (∀ x ∈ st.1, UpReach edges f x) → (∀ x ∈ st.2, UpReach edges f x) →
    (∀ x ∈ (traverseUp edges fuel id st).1, UpReach edges f x)
    ∧ (∀ x ∈ (traverseUp edges fuel id st).2, UpReach edges f x) := by
  intro fuel
  induction fuel with
  | zero => intro id st _ h1 h2; exact ⟨h1, h2⟩
  | succ fuel ih =>
    intro id st hid h1 h2
    rw [traverseUp_succ]
    by_cases hv : id ∈ st.2
    · rw [if_pos hv]; exact ⟨h1, h2⟩
    · rw [if_neg hv]
      refine foldl_invariant (traverseStep edges fuel id)
        (fun acc => (∀ x ∈ acc.1, UpReach edges f x) ∧ (∀ x ∈ acc.2, UpReach edges f x))
        edges (st.1, st.2 ++ [id]) ⟨h1, ?_⟩ ?_
      · intro x hx
        rcases List.mem_append.mp hx with hx | hx
        · exact h2 x hx
        · rcases List.mem_singleton.mp hx with rfl
          exact hid
      · intro acc e he hacc
        rw [traverseStep]
        by_cases ht : e.target = id
        · rw [if_pos ht]
          have hsrcR : UpReach edges f e.source := UpReach.step e he ht hid
          refine ih e.source (insertIfAbsent acc.1 e.source, acc.2) hsrcR ?_ hacc.2
          intro x hx
          rcases mem_insertIfAbsent.mp hx with hx | rfl
          · exact hacc.1 x hx
          · exact hsrcR
        · rw [if_neg ht]; exact hacc

theorem length_filter_anti {α : Type} [DecidableEq α] (S : List α) {v v' : List α}
    (h : ∀ x ∈ v, x ∈ v') :
    (S.filter (fun s => s ∉ v')).length ≤ (S.filter (fun s => s ∉ v)).length := by
  refine (List.monotone_filter_right S (fun a ha => ?_)).length_le
  simp only [decide_eq_true_eq] at ha ⊢
  exact fun hmem => ha (h a hmem)

theorem length_filter_strict {α : Type} [DecidableEq α] (S : List α) {v : List α} {a : α}
    (haS : a ∈ S) (hav : a ∉ v) :
    (S.filter (fun s => s ∉ (v ++ [a]))).length < (S.filter (fun s => s ∉ v)).length := by
  have hsub : (S.filter (fun s => s ∉ (v ++ [a]))).Sublist (S.filter (fun s => s ∉ v)) := by
    refine List.monotone_filter_right S (fun x hx => ?_)
    simp only [decide_eq_true_eq, List.mem_append, List.mem_singleton] at hx ⊢
    exact fun hmem => hx (Or.inl hmem)
  rcases lt_or_eq_of_le hsub.length_le with h | h
  · exact h
  · exfalso
    have heq := hsub.eq_of_length h
    have ha1 : a ∈ S.filter (fun s => s ∉ v) :=
      List.mem_filter.mpr ⟨haS, by simpa using hav⟩
    rw [← heq] at ha1
    have := (List.mem_filter.mp ha1).2
    simp at this

theorem length_firstDedupAux_le {α : Type} [DecidableEq α] :
    ∀ (l seen : List α), (firstDedupAux l seen).length ≤ l.length := by
  intro l
  induction l with
  | nil => intro seen; exact Nat.le_refl 0
  | cons a rest ih =>
    intro seen
    by_cases ha : a ∈ seen
    · rw [firstDedupAux, if_pos ha]
      exact Nat.le_succ_of_le (ih seen)
    · rw [firstDedupAux, if_neg ha, List.length_cons]
      exact Nat.succ_le_succ (ih (a :: seen))

theorem traverse_complete (edges : List Edge) (SIds : List String)
    (hsrc : ∀ e ∈ edges, e.source ∈ SIds) :
    ∀ (fuel : Nat) (id : String) (st : List String × List String)
      (Exc : String → Edge → Prop),
    id ∈ SIds →
    (SIds.filter (fun s => s ∉ st.2)).length < fuel →
    (∀ v ∈ st.2, ∀ e ∈ edges, e.target = v →
      Exc v e ∨ (e.source ∈ st.1 ∧ e.source ∈ st.2)) →
    id ∈ (traverseUp edges fuel id st).2
    ∧ st.1 ⊆ (traverseUp edges fuel id st).1
    ∧ st.2 ⊆ (traverseUp edges fuel id st).2
    ∧ (∀ v ∈ (traverseUp edges fuel id st).2, ∀ e ∈ edges, e.target = v →
        Exc v e ∨ (e.source ∈ (traverseUp edges fuel id st).1
          ∧ e.source ∈ (traverseUp edges fuel id st).2)) := by
  intro fuel
  induction fuel with
  | zero =>
    intro id st Exc _ hfuel _
    exact absurd hfuel (by omega)
  | succ fuel ih =>
    intro id st Exc hid hfuel hc
    rw [traverseUp_succ]
    by_cases hv : id ∈ st.2
    · rw [if_pos hv]
      exact ⟨hv, fun _ h => h, fun _ h => h, hc⟩
    · rw [if_neg hv]
      have hbound0 : (SIds.filter (fun s => s ∉ (st.2 ++ [id]))).length < fuel := by
        have hstrict := length_filter_strict SIds hid hv
        omega
      have key : ∀ (l : List Edge), (∀ e ∈ l, e ∈ edges) →
          ∀ acc : List String × List String,
          id ∈ acc.2 →
          (SIds.filter (fun s => s ∉ acc.2)).length < fuel →
          (∀ v ∈ acc.2, ∀ e ∈ edges, e.target = v →
            (Exc v e ∨ (v = id ∧ e ∈ l)) ∨ (e.source ∈ acc.1 ∧ e.source ∈ acc.2)) →
          id ∈ (l.foldl (traverseStep edges fuel id) acc).2
          ∧ acc.1 ⊆ (l.foldl (traverseStep edges fuel id) acc).1
          ∧ acc.2 ⊆ (l.foldl (traverseStep edges fuel id) acc).2
          ∧ (∀ v ∈ (l.foldl (traverseStep edges fuel id) acc).2, ∀ e ∈ edges,
              e.target = v →
              Exc v e ∨ (e.source ∈ (l.foldl (traverseStep edges fuel id) acc).1
                ∧ e.source ∈ (l.foldl (traverseStep edges fuel id) acc).2)) := by
        intro l
        induction l with
        | nil =>
          intro _ acc ha _ hcl
          refine ⟨ha, fun _ h => h, fun _ h => h, ?_⟩
          intro v hvv e he ht
          rcases hcl v hvv e he ht with (hx | ⟨_, hmem⟩) | hx
          · exact Or.inl hx
          · simp at hmem
          · exact Or.inr hx
        | cons e0 rest ihl =>
          intro hl acc ha hb hcl
          rw [List.foldl_cons]
          by_cases ht0 : e0.target = id
          · have hstep : traverseStep edges fuel id acc e0
                = traverseUp edges fuel e0.source (insertIfAbsent acc.1 e0.source, acc.2) := by
              rw [traverseStep, if_pos ht0]
            rw [hstep]
            have hsrc0 : e0.source ∈ SIds := hsrc e0 (hl e0 (List.mem_cons_self e0 rest))
            have harg : ∀ v ∈ (insertIfAbsent acc.1 e0.source, acc.2).2, ∀ e ∈ edges,
                e.target = v →
                (Exc v e ∨ (v = id ∧ e ∈ e0 :: rest))
                ∨ (e.source ∈ (insertIfAbsent acc.1 e0.source, acc.2).1
                   ∧ e.source ∈ (insertIfAbsent acc.1 e0.source, acc.2).2) := by
              intro v hvv e he ht
              rcases hcl v hvv e he ht with hx | ⟨hx1, hx2⟩
              · exact Or.inl hx
              · exact Or.inr ⟨mem_insertIfAbsent.mpr (Or.inl hx1), hx2⟩
            obtain ⟨hidIn, hsub1, hsub2, hclosure⟩ := ih e0.source
              (insertIfAbsent acc.1 e0.source, acc.2)
              (fun v e => Exc v e ∨ (v = id ∧ e ∈ e0 :: rest)) hsrc0 hb harg
            have hsrcRel : e0.source
                ∈ (traverseUp edges fuel e0.source (insertIfAbsent acc.1 e0.source, acc.2)).1 :=
              hsub1 (mem_insertIfAbsent.mpr (Or.inr rfl))
            have harg2 : ∀ v ∈ (traverseUp edges fuel e0.source
                  (insertIfAbsent acc.1 e0.source, acc.2)).2, ∀ e ∈ edges,
                e.target = v →
                (Exc v e ∨ (v = id ∧ e ∈ rest))
                ∨ (e.source ∈ (traverseUp edges fuel e0.source
                      (insertIfAbsent acc.1 e0.source, acc.2)).1
                   ∧ e.source ∈ (traverseUp edges fuel e0.source
                      (insertIfAbsent acc.1 e0.source, acc.2)).2) := by
              intro v hvv e he ht
              rcases hclosure v hvv e he ht with (hx | ⟨hveq, hmem⟩) | hx
              · exact Or.inl (Or.inl hx)
              · rcases List.mem_cons.mp hmem with rfl | hmem'
                · exact Or.inr ⟨hsrcRel, hidIn⟩
                · exact Or.inl (Or.inr ⟨hveq, hmem'⟩)
              · exact Or.inr hx
            obtain ⟨ka, kb1, kb2, kc⟩ := ihl (fun e he => hl e (List.mem_cons_of_mem _ he))
              (traverseUp edges fuel e0.source (insertIfAbsent acc.1 e0.source, acc.2))
              (hsub2 ha)
              (lt_of_le_of_lt (length_filter_anti SIds hsub2) hb) harg2
            refine ⟨ka, ?_, ?_, kc⟩
            · intro x hx
              exact kb1 (hsub1 (mem_insertIfAbsent.mpr (Or.inl hx)))
            · intro x hx
              exact kb2 (hsub2 hx)
          · have hstep : traverseStep edges fuel id acc e0 = acc := by
              rw [traverseStep, if_neg ht0]
            rw [hstep]
            refine ihl (fun e he => hl e (List.mem_cons_of_mem _ he)) acc ha hb ?_
            intro v hvv e he ht
            rcases hcl v hvv e he ht with (hx | ⟨hveq, hmem⟩) | hx
            · exact Or.inl (Or.inl hx)
            · rcases List.mem_cons.mp hmem with rfl | hmem'
              · exact absurd (by rw [ht, hveq]) ht0
              · exact Or.inl (Or.inr ⟨hveq, hmem'⟩)
            · exact Or.inr hx
      have hstart : ∀ v ∈ st.2 ++ [id], ∀ e ∈ edges, e.target = v →
          (Exc v e ∨ (v = id ∧ e ∈ edges)) ∨ (e.source ∈ st.1 ∧ e.source ∈ st.2 ++ [id]) := by
        intro v hvv e he ht
        rcases List.mem_append.mp hvv with hvs | hvi
        · rcases hc v hvs e he ht with hx | ⟨hx1, hx2⟩
          · exact Or.inl (Or.inl hx)
          · exact Or.inr ⟨hx1, List.mem_append_left _ hx2⟩
        · rcases List.mem_singleton.mp hvi with rfl
          exact Or.inl (Or.inr ⟨rfl, he⟩)
      obtain ⟨ka, kb1, kb2, kc⟩ := key edges (fun _ he => he) (st.1, st.2 ++ [id])
        (List.mem_append_right _ (List.mem_singleton.mpr rfl)) hbound0 hstart
      exact ⟨ka, kb1, fun x hx => kb2 (List.mem_append_left _ hx), kc⟩

/-- C8: `getRelatedFields` always contains the start id; every member of
the result is backward-reachable from the start id along the graph's edges
(target to source); and conversely every backward-reachable id is in the
result — the fuel `edges.length + 2` always suffices, so the traversal
terminates with the full upstream closure even on cyclic graphs. -/
theorem related_fields_upstream_closure (g : Graph) (f : String) :
    f ∈ getRelatedFields g f
    ∧ (∀ x ∈ getRelatedFields g f, UpReach g.edges f x)
    ∧ (∀ x, UpReach g.edges f x → x ∈ getRelatedFields g f) := by
  have hmono := traverse_mono g.edges (g.edges.length + 2) f ([f], [])
  refine ⟨hmono.1 (List.mem_singleton.mpr rfl), ?_, ?_⟩
  · intro x hx
    refine (traverse_sound g.edges f (g.edges.length + 2) f ([f], [])
      UpReach.refl ?_ ?_).1 x hx
    · intro y hy
      rcases List.mem_singleton.mp hy with rfl
      exact UpReach.refl
    · intro y hy
      simp at hy
  · have hsrc : ∀ e ∈ g.edges,
        e.source ∈ firstDedup (f :: g.edges.map (fun e => e.source)) := by
      intro e he
      exact mem_firstDedup.mpr (List.mem_cons_of_mem _ (List.mem_map_of_mem _ he))
    have hfS : f ∈ firstDedup (f :: g.edges.map (fun e => e.source)) :=
      mem_firstDedup.mpr (List.mem_cons_self _ _)
    have hbound : ((firstDedup (f :: g.edges.map (fun e => e.source))).filter
        (fun s => s ∉ ([] : List String))).length < g.edges.length + 2 := by
      have hfe : (firstDedup (f :: g.edges.map (fun e => e.source))).filter
          (fun s => s ∉ ([] : List String))
          = firstDedup (f :: g.edges.map (fun e => e.source)) := by
        apply List.filter_eq_self.mpr
        intro a _
        simp
      rw [hfe]
      have h1 := length_firstDedupAux_le (f :: g.edges.map (fun e => e.source))
        ([] : List String)
      simp only [List.length_cons, List.length_map] at h1
      rw [firstDedup]
      omega
    obtain ⟨hfvis, _, _, hclosure⟩ := traverse_complete g.edges
      (firstDedup (f :: g.edges.map (fun e => e.source))) hsrc
      (g.edges.length + 2) f ([f], []) (fun _ _ => False) hfS hbound
      (by intro v hv; simp at hv)
    have main : ∀ x, UpReach g.edges f x →
        x ∈ (traverseUp g.edges (g.edges.length + 2) f ([f], [])).2
        ∧ x ∈ (traverseUp g.edges (g.edges.length + 2) f ([f], [])).1 := by
      intro x hx
      induction hx with
      | refl => exact ⟨hfvis, hmono.1 (List.mem_singleton.mpr rfl)⟩
      | step e he ht hy ihy =>
        rcases hclosure _ (ht ▸ ihy.1) e he ht with hfalse | ⟨h1, h2⟩
        · exact hfalse.elim
        · exact ⟨h2, h1⟩
    intro x hx
    exact (main x hx).2

end LineageMap

namespace LineageMap

/-- C8 witness: in the cyclic graph `gC8`, the closure theorem applied at
start `q` puts `q` itself and the transitively upstream `r` into the
result. -/
theorem related_fields_witness :
    "q" ∈ getRelatedFields gC8 "q" ∧ "r" ∈ getRelatedFields gC8 "q" := by
  have h2 : UpReach gC8.edges "q" "p" :=
    UpReach.step (eFF "p" "q") (by decide) rfl UpReach.refl
  have h3 : UpReach gC8.edges "q" "r" :=
    UpReach.step (eFF "r" "p") (by decide) rfl h2
  exact ⟨(related_fields_upstream_closure gC8 "q").1,
    (related_fields_upstream_closure gC8 "q").2.2 "r" h3⟩

/-- C7 witness: the inference theorem applied to the chain graph `gW1` and
its inferred edge `A→B`. -/
theorem infer_dedup_witness :
    inferTableRelationships gW1
        = (firstDedup (gW1.edges.filterMap (resolvedPair gW1))).map mkInferredEdge
      ∧ (mkInferredEdge ("A", "B")).source ≠ (mkInferredEdge ("A", "B")).target := by
  refine ⟨(infer_dedup_first_occurrence gW1).1, ?_⟩
  exact ((infer_dedup_first_occurrence gW1).2.2.1 (mkInferredEdge ("A", "B")) (by decide)).1

end LineageMap

namespace LineageMap

/-! ### Claims C1, C2, C3: the level-assignment loop -/

theorem getTableLevels_eq (g : Graph) :
    getTableLevels g
      = (sortAsc (firstDedup ((remappedOf g).map (fun r => r.level)))).flatMap
          (fun l => (remappedOf g).filter (fun r => r.level = l)) := rfl

theorem levelsLoop_succ (tns : List Node) (K : List String) (deps : String → List String)
    (fuel : Nat) (processed : List String) (curLevel maxLevel : Int) :
    levelsLoop tns K deps (fuel + 1) processed curLevel maxLevel
      = if processed.length < tns.length then
          (if K.filter (fun t => t ∉ processed ∧ (deps t).all (fun d => d ∈ processed)) = [] then
            (((tns.filter (fun tb => tb.id ∉ processed)).map
                (fun tb => TableLevel.mk tb.id curLevel (deps tb.id)))
              ++ (levelsLoop tns K deps fuel
                  ((tns.filter (fun tb => tb.id ∉ processed)).foldl
                    (fun p tb => insertIfAbsent p tb.id) processed)
                  (curLevel + 1) maxLevel).1,
             (levelsLoop tns K deps fuel
                  ((tns.filter (fun tb => tb.id ∉ processed)).foldl
                    (fun p tb => insertIfAbsent p tb.id) processed)
                  (curLevel + 1) maxLevel).2)
          else
            (((K.filter (fun t => t ∉ processed ∧ (deps t).all (fun d => d ∈ processed))).map
                (fun t => TableLevel.mk t curLevel (deps t)))
              ++ (levelsLoop tns K deps fuel
                  (processed ++ K.filter (fun t => t ∉ processed ∧ (deps t).all (fun d => d ∈ processed)))
                  (curLevel + 1) (if curLevel > maxLevel then curLevel else maxLevel)).1,
             (levelsLoop tns K deps fuel
                  (processed ++ K.filter (fun t => t ∉ processed ∧ (deps t).all (fun d => d ∈ processed)))
                  (curLevel + 1) (if curLevel > maxLevel then curLevel else maxLevel)).2))
        else ([], maxLevel) := rfl

theorem map_filter_comm {α β : Type} (f : α → β) (p : β → Bool) (l : List α) :
    (l.filter (fun a => p (f a))).map f = (l.map f).filter p := by
  induction l with
  | nil => rfl
  | cons a t ih => by_cases h : p (f a) <;> simp [h, ih]

theorem mem_candidates {K : List String} {deps : String → List String}
    {processed : List String} {t : String} :
    t ∈ K.filter (fun t => t ∉ processed ∧ (deps t).all (fun d => d ∈ processed))
    ↔ t ∈ K ∧ t ∉ processed ∧ ∀ d ∈ deps t, d ∈ processed := by
  rw [List.mem_filter]
  simp [List.all_eq_true]

theorem not_mem_decode {α : Type} [DecidableEq α] {l seen : List α} {x : α}
    (hx : x ∈ l.filter (fun k => k ∉ seen)) : x ∈ l ∧ x ∉ seen := by
  have := List.mem_filter.mp hx
  exact ⟨this.1, by simpa using this.2⟩

theorem remaining_filter_decompose {K processed C : List String} :
    K.filter (fun k => k ∉ processed ++ C)
      = (K.filter (fun k => k ∉ processed)).filter (fun k => k ∉ C) := by
  rw [List.filter_filter]
  apply List.filter_congr
  intro k _
  by_cases h1 : k ∈ processed <;> by_cases h2 : k ∈ C <;>
    simp [h1, h2, List.mem_append]

theorem remaining_strict_decrease {K processed C : List String} {c : String}
    (hc : c ∈ C) (hcK : c ∈ K) (hcp : c ∉ processed) :
    (K.filter (fun k => k ∉ processed ++ C)).length
      < (K.filter (fun k => k ∉ processed)).length := by
  rw [remaining_filter_decompose]
  have hsub : ((K.filter (fun k => k ∉ processed)).filter (fun k => k ∉ C)).Sublist
      (K.filter (fun k => k ∉ processed)) := List.filter_sublist _
  rcases lt_or_eq_of_le hsub.length_le with h | h
  · exact h
  · exfalso
    have heq := hsub.eq_of_length h
    have hcmem : c ∈ K.filter (fun k => k ∉ processed) :=
      List.mem_filter.mpr ⟨hcK, by simpa using hcp⟩
    rw [← heq] at hcmem
    exact (not_mem_decode hcmem).2 hc

theorem map_tl_id (l : List String) (cur : Int) (deps : String → List String) :
    List.map (fun r => r.id) (l.map (fun t => TableLevel.mk t cur (deps t))) = l := by
  induction l with
  | nil => rfl
  | cons a t ih => simp [ih]

theorem map_tl_id_nodes (l : List Node) (cur : Int) (deps : String → List String) :
    List.map (fun r => r.id) (l.map (fun tb => TableLevel.mk tb.id cur (deps tb.id)))
      = l.map (fun tb => tb.id) := by
  induction l with
  | nil => rfl
  | cons a t ih => simp [ih]

theorem levelsLoop_spec (tns : List Node) (K : List String) (deps : String → List String)
    (hKeq : tns.map (fun tb => tb.id) = K) (hK : K.Nodup) :
    ∀ (fuel : Nat) (processed : List String) (curLevel maxLevel : Int),
    processed.Nodup → (∀ p ∈ processed, p ∈ K) →
    (K.filter (fun k => k ∉ processed)).length < fuel →
    1 ≤ curLevel → curLevel ≤ maxLevel + 1 →
    List.Perm ((levelsLoop tns K deps fuel processed curLevel maxLevel).1.map (fun r => r.id))
      (K.filter (fun k => k ∉ processed))
    ∧ (∀ r ∈ (levelsLoop tns K deps fuel processed curLevel maxLevel).1,
        curLevel ≤ r.level
        ∧ r.level ≤ (levelsLoop tns K deps fuel processed curLevel maxLevel).2 + 1)
    ∧ maxLevel ≤ (levelsLoop tns K deps fuel processed curLevel maxLevel).2 := by
  intro fuel
  induction fuel with
  | zero =>
    intro processed cur maxL _ _ hfuel _ _
    exact absurd hfuel (by omega)
  | succ fuel ih =>
    intro processed cur maxL hpn hps hfuel hcur hcm
    have hlen : tns.length = K.length := by rw [← hKeq, List.length_map]
    rw [levelsLoop_succ]
    by_cases hcond : processed.length < tns.length
    case neg =>
      rw [if_neg hcond]
      have hrem : K.filter (fun k => k ∉ processed) = [] := by
        by_contra hne
        exact hcond (hlen ▸ (length_lt_iff_remaining hpn hK hps).mpr hne)
      rw [hrem]
      exact ⟨by simp, by simp, le_refl maxL⟩
    case pos =>
      rw [if_pos hcond]
      have hremne : K.filter (fun k => k ∉ processed) ≠ [] :=
        (length_lt_iff_remaining hpn hK hps).mp (hlen ▸ hcond)
      by_cases hcand : K.filter
          (fun t => t ∉ processed ∧ (deps t).all (fun d => d ∈ processed)) = []
      case pos =>
        rw [if_pos hcand]
        have hRids : (tns.filter (fun tb => tb.id ∉ processed)).map (fun tb => tb.id)
            = K.filter (fun k => k ∉ processed) := by
          rw [← hKeq]
          exact map_filter_comm (fun tb => tb.id) (fun k => k ∉ processed) tns
        have hproc' : (tns.filter (fun tb => tb.id ∉ processed)).foldl
              (fun p tb => insertIfAbsent p tb.id) processed
            = processed ++ K.filter (fun k => k ∉ processed) := by
          rw [← List.foldl_map (fun tb : Node => tb.id) insertIfAbsent, hRids,
            foldl_insertIfAbsent]
          congr 1
          refine firstDedupAux_eq_self (hK.filter _) ?_
          intro x hx
          exact (not_mem_decode hx).2
        have hnodup' : (processed ++ K.filter (fun k => k ∉ processed)).Nodup := by
          refine List.Nodup.append hpn (hK.filter _) ?_
          intro x hx1 hx2
          exact (not_mem_decode hx2).2 hx1
        have hlen' : (processed ++ K.filter (fun k => k ∉ processed)).length = tns.length := by
          rw [hlen]
          refine nodup_length_eq_of_mem_iff hnodup' hK ?_
          intro x
          constructor
          · intro hx
            rcases List.mem_append.mp hx with hx | hx
            · exact hps x hx
            · exact (not_mem_decode hx).1
          · intro hx
            by_cases hxp : x ∈ processed
            · exact List.mem_append_left _ hxp
            · exact List.mem_append_right _ (List.mem_filter.mpr ⟨hx, by simpa using hxp⟩)
        rcases fuel with _ | fuel'
        · exfalso
          have h0 : (K.filter (fun k => k ∉ processed)).length = 0 := by omega
          exact hremne (List.eq_nil_of_length_eq_zero h0)
        · rw [hproc', levelsLoop_succ, if_neg (by omega)]
          refine ⟨?_, ?_, le_refl maxL⟩
          · rw [List.append_nil]
            have hme := map_tl_id_nodes (tns.filter (fun tb => tb.id ∉ processed)) cur deps
            exact List.Perm.of_eq (hme.trans hRids)
          · intro r hr
            rw [List.append_nil] at hr
            obtain ⟨tb, _, rfl⟩ := List.mem_map.mp hr
            refine ⟨le_refl cur, ?_⟩
            show cur ≤ maxL + 1
            omega
      case neg =>
        rw [if_neg hcand]
        have hCprops : ∀ c ∈ K.filter
            (fun t => t ∉ processed ∧ (deps t).all (fun d => d ∈ processed)),
            c ∈ K ∧ c ∉ processed ∧ ∀ d ∈ deps c, d ∈ processed := by
          intro c hc
          exact mem_candidates.mp hc
        have hCnodup : (K.filter
            (fun t => t ∉ processed ∧ (deps t).all (fun d => d ∈ processed))).Nodup :=
          hK.filter _
        obtain ⟨c0, hc0⟩ := List.exists_mem_of_ne_nil _ hcand
        have hnodup' : (processed ++ K.filter
            (fun t => t ∉ processed ∧ (deps t).all (fun d => d ∈ processed))).Nodup := by
          refine List.Nodup.append hpn hCnodup ?_
          intro x hx1 hx2
          exact (hCprops x hx2).2.1 hx1
        have hsub' : ∀ p ∈ processed ++ K.filter
            (fun t => t ∉ processed ∧ (deps t).all (fun d => d ∈ processed)), p ∈ K := by
          intro p hp
          rcases List.mem_append.mp hp with hp | hp
          · exact hps p hp
          · exact (hCprops p hp).1
        have hdec : (K.filter (fun k => k ∉ processed ++ K.filter
              (fun t => t ∉ processed ∧ (deps t).all (fun d => d ∈ processed)))).length
            < (K.filter (fun k => k ∉ processed)).length :=
          remaining_strict_decrease hc0 (hCprops c0 hc0).1 (hCprops c0 hc0).2.1
        have hm2 : cur ≤ (if cur > maxL then cur else maxL) := by
          split <;> omega
        have hm1 : maxL ≤ (if cur > maxL then cur else maxL) := by
          split <;> omega
        obtain ⟨ihperm, ihbound, ihmax⟩ := ih
          (processed ++ K.filter
            (fun t => t ∉ processed ∧ (deps t).all (fun d => d ∈ processed)))
          (cur + 1) (if cur > maxL then cur else maxL)
          hnodup' hsub' (by omega) (by omega) (by omega)
        refine ⟨?_, ?_, le_trans hm1 ihmax⟩
        · rw [List.map_append,
            map_tl_id (K.filter
              (fun t => t ∉ processed ∧ (deps t).all (fun d => d ∈ processed))) cur deps]
          have h1 := ihperm
          rw [remaining_filter_decompose] at h1
          have hCpart : (K.filter (fun k => k ∉ processed)).filter (fun k =>
              k ∈ K.filter (fun t => t ∉ processed ∧ (deps t).all (fun d => d ∈ processed)))
              = K.filter (fun t => t ∉ processed ∧ (deps t).all (fun d => d ∈ processed)) := by
            rw [List.filter_filter]
            apply List.filter_congr
            intro k hk
            have hkK : k ∈ K := hk
            rw [Bool.eq_iff_iff]
            simp only [Bool.and_eq_true, decide_eq_true_eq, List.mem_filter,
              List.all_eq_true]
            tauto
          have h2 := List.filter_append_perm
            (fun k => k ∈ K.filter
              (fun t => t ∉ processed ∧ (deps t).all (fun d => d ∈ processed)))
            (K.filter (fun k => k ∉ processed))
          rw [hCpart] at h2
          have h4 : (K.filter (fun k => k ∉ processed)).filter (fun a =>
              !(decide (a ∈ K.filter
                (fun t => t ∉ processed ∧ (deps t).all (fun d => d ∈ processed)))))
              = (K.filter (fun k => k ∉ processed)).filter (fun k =>
                k ∉ K.filter (fun t => t ∉ processed ∧ (deps t).all (fun d => d ∈ processed))) := by
            apply List.filter_congr
            intro k _
            rw [decide_not]
          rw [h4] at h2
          exact (List.Perm.append_left _ h1).trans h2
        · intro r hr
          rcases List.mem_append.mp hr with hr | hr
          · obtain ⟨t, _, rfl⟩ := List.mem_map.mp hr
            have h5 := le_trans hm2 ihmax
            refine ⟨le_refl cur, ?_⟩
            simp only []
            omega
          · obtain ⟨h1, h2⟩ := ihbound r hr
            exact ⟨by omega, h2⟩

theorem exists_rank_min {α : Type} (f : α → Nat) :
    ∀ (l : List α), l ≠ [] → ∃ a ∈ l, ∀ b ∈ l, f a ≤ f b := by
  intro l
  induction l with
  | nil => intro h; exact absurd rfl h
  | cons a t ih =>
    intro _
    by_cases ht : t = []
    · subst ht
      refine ⟨a, List.mem_cons_self a [], ?_⟩
      intro b hb
      simp only [List.mem_singleton] at hb
      subst hb
      exact le_refl _
    · obtain ⟨m, hm, hmin⟩ := ih ht
      by_cases hc : f a ≤ f m
      · refine ⟨a, List.mem_cons_self a t, ?_⟩
        intro b hb
        rcases List.mem_cons.mp hb with rfl | hb
        · exact le_refl _
        · exact le_trans hc (hmin b hb)
      · refine ⟨m, List.mem_cons_of_mem a hm, ?_⟩
        intro b hb
        rcases List.mem_cons.mp hb with rfl | hb
        · exact (Nat.not_le.mp hc).le
        · exact hmin b hb

theorem levelsLoop_acyclic_spec (tns : List Node) (K : List String)
    (deps : String → List String) (rank : String → Nat)
    (hKeq : tns.map (fun tb => tb.id) = K) (hK : K.Nodup)
    (hdepsub : ∀ k ∈ K, ∀ d ∈ deps k, d ∈ K)
    (hrank : ∀ k ∈ K, ∀ d ∈ deps k, rank d < rank k) :
    ∀ (fuel : Nat) (processed : List String) (curLevel maxLevel : Int),
    processed.Nodup → (∀ p ∈ processed, p ∈ K) →
    (K.filter (fun k => k ∉ processed)).length < fuel →
    1 ≤ curLevel → curLevel ≤ maxLevel + 1 →
    List.Perm ((levelsLoop tns K deps fuel processed curLevel maxLevel).1.map (fun r => r.id))
      (K.filter (fun k => k ∉ processed))
    ∧ (∀ r ∈ (levelsLoop tns K deps fuel processed curLevel maxLevel).1,
        curLevel ≤ r.level
        ∧ r.level ≤ (levelsLoop tns K deps fuel processed curLevel maxLevel).2)
    ∧ maxLevel ≤ (levelsLoop tns K deps fuel processed curLevel maxLevel).2
    ∧ (∀ r ∈ (levelsLoop tns K deps fuel processed curLevel maxLevel).1,
        ∀ d ∈ deps r.id, d ∈ processed
          ∨ ∃ r' ∈ (levelsLoop tns K deps fuel processed curLevel maxLevel).1,
              r'.id = d ∧ r'.level < r.level) := by
  intro fuel
  induction fuel with
  | zero =>
    intro processed cur maxL _ _ hfuel _ _
    exact absurd hfuel (by omega)
  | succ fuel ih =>
    intro processed cur maxL hpn hps hfuel hcur hcm
    have hlen : tns.length = K.length := by rw [← hKeq, List.length_map]
    rw [levelsLoop_succ]
    by_cases hcond : processed.length < tns.length
    case neg =>
      rw [if_neg hcond]
      have hrem : K.filter (fun k => k ∉ processed) = [] := by
        by_contra hne
        exact hcond (hlen ▸ (length_lt_iff_remaining hpn hK hps).mpr hne)
      rw [hrem]
      exact ⟨by simp, by simp, le_refl maxL, by simp⟩
    case pos =>
      rw [if_pos hcond]
      have hremne : K.filter (fun k => k ∉ processed) ≠ [] :=
        (length_lt_iff_remaining hpn hK hps).mp (hlen ▸ hcond)
      by_cases hcand : K.filter
          (fun t => t ∉ processed ∧ (deps t).all (fun d => d ∈ processed)) = []
      case pos =>
        exfalso
        obtain ⟨r0, hr0R, hr0min⟩ := exists_rank_min rank _ hremne
        obtain ⟨hr0K, hr0p⟩ := not_mem_decode hr0R
        have hdall : ∀ d ∈ deps r0, d ∈ processed := by
          intro d hd
          by_contra hdp
          have hdK : d ∈ K := hdepsub r0 hr0K d hd
          have hdR : d ∈ K.filter (fun k => k ∉ processed) :=
            List.mem_filter.mpr ⟨hdK, by simpa using hdp⟩
          have h1 := hr0min d hdR
          have h2 := hrank r0 hr0K d hd
          omega
        have hmem := mem_candidates.mpr ⟨hr0K, hr0p, hdall⟩
        rw [hcand] at hmem
        simp at hmem
      case neg =>
        rw [if_neg hcand]
        have hCprops : ∀ c ∈ K.filter
            (fun t => t ∉ processed ∧ (deps t).all (fun d => d ∈ processed)),
            c ∈ K ∧ c ∉ processed ∧ ∀ d ∈ deps c, d ∈ processed := by
          intro c hc
          exact mem_candidates.mp hc
        have hCnodup : (K.filter
            (fun t => t ∉ processed ∧ (deps t).all (fun d => d ∈ processed))).Nodup :=
          hK.filter _
        obtain ⟨c0, hc0⟩ := List.exists_mem_of_ne_nil _ hcand
        have hnodup' : (processed ++ K.filter
            (fun t => t ∉ processed ∧ (deps t).all (fun d => d ∈ processed))).Nodup := by
          refine List.Nodup.append hpn hCnodup ?_
          intro x hx1 hx2
          exact (hCprops x hx2).2.1 hx1
        have hsub' : ∀ p ∈ processed ++ K.filter
            (fun t => t ∉ processed ∧ (deps t).all (fun d => d ∈ processed)), p ∈ K := by
          intro p hp
          rcases List.mem_append.mp hp with hp | hp
          · exact hps p hp
          · exact (hCprops p hp).1
        have hdec : (K.filter (fun k => k ∉ processed ++ K.filter
              (fun t => t ∉ processed ∧ (deps t).all (fun d => d ∈ processed)))).length
            < (K.filter (fun k => k ∉ processed)).length :=
          remaining_strict_decrease hc0 (hCprops c0 hc0).1 (hCprops c0 hc0).2.1
        have hm2 : cur ≤ (if cur > maxL then cur else maxL) := by
          split <;> omega
        have hm1 : maxL ≤ (if cur > maxL then cur else maxL) := by
          split <;> omega
        obtain ⟨ihperm, ihbound, ihmax, ihdeps⟩ := ih
          (processed ++ K.filter
            (fun t => t ∉ processed ∧ (deps t).all (fun d => d ∈ processed)))
          (cur + 1) (if cur > maxL then cur else maxL)
          hnodup' hsub' (by omega) (by omega) (by omega)
        refine ⟨?_, ?_, le_trans hm1 ihmax, ?_⟩
        · rw [List.map_append,
            map_tl_id (K.filter
              (fun t => t ∉ processed ∧ (deps t).all (fun d => d ∈ processed))) cur deps]
          have h1 := ihperm
          rw [remaining_filter_decompose] at h1
          have hCpart : (K.filter (fun k => k ∉ processed)).filter (fun k =>
              k ∈ K.filter (fun t => t ∉ processed ∧ (deps t).all (fun d => d ∈ processed)))
              = K.filter (fun t => t ∉ processed ∧ (deps t).all (fun d => d ∈ processed)) := by
            rw [List.filter_filter]
            apply List.filter_congr
            intro k hk
            have hkK : k ∈ K := hk
            rw [Bool.eq_iff_iff]
            simp only [Bool.and_eq_true, decide_eq_true_eq, List.mem_filter,
              List.all_eq_true]
            tauto
          have h2 := List.filter_append_perm
            (fun k => k ∈ K.filter
              (fun t => t ∉ processed ∧ (deps t).all (fun d => d ∈ processed)))
            (K.filter (fun k => k ∉ processed))
          rw [hCpart] at h2
          have h4 : (K.filter (fun k => k ∉ processed)).filter (fun a =>
              !(decide (a ∈ K.filter
                (fun t => t ∉ processed ∧ (deps t).all (fun d => d ∈ processed)))))
              = (K.filter (fun k => k ∉ processed)).filter (fun k =>
                k ∉ K.filter (fun t => t ∉ processed ∧ (deps t).all (fun d => d ∈ processed))) := by
            apply List.filter_congr
            intro k _
            rw [decide_not]
          rw [h4] at h2
          exact (List.Perm.append_left _ h1).trans h2
        · intro r hr
          rcases List.mem_append.mp hr with hr | hr
          · obtain ⟨t, _, rfl⟩ := List.mem_map.mp hr
            have h5 := le_trans hm2 ihmax
            refine ⟨le_refl cur, ?_⟩
            simp only []
            omega
          · obtain ⟨h1, h2⟩ := ihbound r hr
            exact ⟨by omega, h2⟩
        · intro r hr
          rcases List.mem_append.mp hr with hr | hr
          · obtain ⟨t, htC, rfl⟩ := List.mem_map.mp hr
            intro d hd
            exact Or.inl ((hCprops t htC).2.2 d hd)
          · obtain ⟨h1, _⟩ := ihbound r hr
            intro d hd
            rcases ihdeps r hr d hd with hdp | ⟨r', hr', hid, hlv⟩
            · rcases List.mem_append.mp hdp with hdp | hdC
              · exact Or.inl hdp
              · right
                refine ⟨TableLevel.mk d cur (deps d), ?_, rfl, ?_⟩
                · exact List.mem_append_left _ (List.mem_map.mpr ⟨d, hdC, rfl⟩)
                · show cur < r.level
                  omega
            · exact Or.inr ⟨r', List.mem_append_right _ hr', hid, hlv⟩

theorem insertAsc_perm (x : Int) (l : List Int) : (insertAsc x l).Perm (x :: l) := by
  induction l with
  | nil => exact List.Perm.refl _
  | cons y ys ih =>
    by_cases h : x ≤ y
    · simp only [insertAsc, if_pos h]
      exact List.Perm.refl _
    · simp only [insertAsc, if_neg h]
      exact (List.Perm.cons y ih).trans (List.Perm.swap x y ys)

theorem foldl_insertAsc_perm :
    ∀ (l acc : List Int), (l.foldl (fun acc x => insertAsc x acc) acc).Perm (l ++ acc) := by
  intro l
  induction l with
  | nil => intro acc; exact List.Perm.refl _
  | cons a t ih =>
    intro acc
    simp only [List.foldl_cons, List.cons_append]
    refine ((ih (insertAsc a acc)).trans ?_)
    exact (List.Perm.append_left t (insertAsc_perm a acc)).trans List.perm_middle

theorem sortAsc_perm (l : List Int) : (sortAsc l).Perm l := by
  have h := foldl_insertAsc_perm l []
  rw [List.append_nil] at h
  exact h

theorem flatMap_congr_on {α β : Type} {l : List α} {f g : α → List β}
    (h : ∀ a ∈ l, f a = g a) : l.flatMap f = l.flatMap g := by
  induction l with
  | nil => rfl
  | cons a t ih =>
    simp only [List.flatMap_cons]
    rw [h a (List.mem_cons_self a t), ih (fun b hb => h b (List.mem_cons_of_mem a hb))]

theorem flatMap_filter_perm :
    ∀ (ls : List Int), ls.Nodup →
    ∀ (rs : List TableLevel), (∀ r ∈ rs, r.level ∈ ls) →
    (ls.flatMap (fun l => rs.filter (fun r => r.level = l))).Perm rs := by
  intro ls
  induction ls with
  | nil =>
    intro _ rs hmem
    simp only [List.flatMap_nil]
    cases rs with
    | nil => exact List.Perm.refl _
    | cons r t => exact absurd (hmem r (List.mem_cons_self r t)) (List.not_mem_nil _)
  | cons l ls ih =>
    intro hnd rs hmem
    have hlns : l ∉ ls := (List.nodup_cons.mp hnd).1
    have hndt : ls.Nodup := (List.nodup_cons.mp hnd).2
    simp only [List.flatMap_cons]
    have htail : ls.flatMap (fun x => rs.filter (fun r => r.level = x))
        = ls.flatMap (fun x =>
            (rs.filter (fun r => ¬ r.level = l)).filter (fun r => r.level = x)) := by
      apply flatMap_congr_on
      intro x hx
      have hne : ¬ x = l := fun he => hlns (he ▸ hx)
      rw [List.filter_filter]
      apply List.filter_congr
      intro r _
      rw [Bool.eq_iff_iff]
      simp only [Bool.and_eq_true, decide_eq_true_eq]
      omega
    rw [htail]
    have hm2 : ∀ r ∈ rs.filter (fun r => ¬ r.level = l), r.level ∈ ls := by
      intro r hr
      have h3 := List.mem_filter.mp hr
      rcases List.mem_cons.mp (hmem r h3.1) with h5 | h5
      · exact absurd h5 (by simpa using h3.2)
      · exact h5
    have h1 := ih hndt _ hm2
    refine (List.Perm.append_left _ h1).trans ?_
    have h2 := List.filter_append_perm (fun r => r.level = l) rs
    have h4 : rs.filter (fun a => !(decide (a.level = l)))
        = rs.filter (fun r => ¬ r.level = l) := by
      apply List.filter_congr
      intro r _
      rw [decide_not]
    rw [h4] at h2
    exact h2

theorem getTableLevels_perm_remapped (g : Graph) :
    (getTableLevels g).Perm (remappedOf g) := by
  rw [getTableLevels_eq]
  refine flatMap_filter_perm _ ((sortAsc_perm _).symm.nodup (nodup_firstDedup _)) _ ?_
  intro r hr
  have h1 : r.level ∈ firstDedup ((remappedOf g).map (fun r => r.level)) :=
    mem_firstDedup.mpr (List.mem_map.mpr ⟨r, hr, rfl⟩)
  exact ((sortAsc_perm _).symm.mem_iff).mp h1

theorem remapFn_id (m : Int) (r : TableLevel) :
    (if r.level = 0 then r else { r with level := m - r.level + 1 }).id = r.id := by
  split <;> rfl

theorem remappedOf_map_id (g : Graph) :
    (remappedOf g).map (fun r => r.id) = (levelsPre g).map (fun r => r.id) := by
  rw [remappedOf, List.map_map]
  apply List.map_congr_left
  intro r _
  exact remapFn_id (loopRes g).2 r

theorem map_tl_id_iso (l : List Node) :
    List.map (fun r => r.id) (l.map (fun tb => TableLevel.mk tb.id 0 []))
      = l.map (fun tb => tb.id) := by
  induction l with
  | nil => rfl
  | cons a t ih => simp [ih]

theorem filter_partition_perm {α : Type} [DecidableEq α] (l : List α) (p : α → Bool) :
    ((l.filter p) ++ (l.filter (fun k => k ∉ l.filter p))).Perm l := by
  have h2 := List.filter_append_perm p l
  have h4 : l.filter (fun a => !(p a)) = l.filter (fun k => k ∉ l.filter p) := by
    apply List.filter_congr
    intro k hk
    by_cases hmem : k ∈ l.filter p
    · have hp := (List.mem_filter.mp hmem).2
      rw [hp]
      simp [hmem]
    · have hp : p k = false := by
        cases hb : p k
        · rfl
        · exact absurd (List.mem_filter.mpr ⟨hk, hb⟩) hmem
      rw [hp]
      simp [hmem]
  rw [h4] at h2
  exact h2

theorem isolated_map_id (g : Graph) :
    (isolatedTables (tableNodesOf g) (inferTableRelationships g)).map (fun tb => tb.id)
      = ((tableNodesOf g).map (fun tb => tb.id)).filter (fun k =>
          ¬ (inferTableRelationships g).any (fun e => e.target = k) ∧
          ¬ (inferTableRelationships g).any (fun e => e.source = k)) :=
  map_filter_comm (fun tb => tb.id)
    (fun k => ¬ (inferTableRelationships g).any (fun e => e.target = k) ∧
              ¬ (inferTableRelationships g).any (fun e => e.source = k))
    (tableNodesOf g)

theorem mem_depsOf {inferred : List Edge} {t d : String} :
    d ∈ depsOf inferred t ↔ ∃ e ∈ inferred, e.source = t ∧ e.target = d := by
  rw [depsOf, mem_firstDedup, List.mem_map]
  constructor
  · rintro ⟨e, he, rfl⟩
    have h2 := List.mem_filter.mp he
    exact ⟨e, h2.1, by simpa using h2.2, rfl⟩
  · rintro ⟨e, he, hs, ht⟩
    exact ⟨e, List.mem_filter.mpr ⟨he, by simpa using hs⟩, ht⟩

theorem iso_no_edge (g : Graph) (tb : Node)
    (htb : tb ∈ isolatedTables (tableNodesOf g) (inferTableRelationships g)) :
    hasInferredEdge g tb.id = false := by
  have h := (List.mem_filter.mp htb).2
  rw [decide_eq_true_eq] at h
  rw [hasInferredEdge, List.any_eq_false]
  intro e he hor
  rw [Bool.or_eq_true] at hor
  rcases hor with h1 | h1
  · exact h.1 (List.any_eq_true.mpr ⟨e, he, h1⟩)
  · exact h.2 (List.any_eq_true.mpr ⟨e, he, h1⟩)

theorem not_iso_has_edge (g : Graph) {k : String}
    (hk : k ∈ (tableNodesOf g).map (fun tb => tb.id))
    (hni : k ∉ (isolatedTables (tableNodesOf g) (inferTableRelationships g)).map
      (fun tb => tb.id)) :
    hasInferredEdge g k = true := by
  obtain ⟨tb, htb, rfl⟩ := List.mem_map.mp hk
  by_contra hf
  apply hni
  refine List.mem_map.mpr ⟨tb, ?_, rfl⟩
  refine List.mem_filter.mpr ⟨htb, ?_⟩
  rw [decide_eq_true_eq]
  constructor
  · intro hany
    apply hf
    rw [hasInferredEdge, List.any_eq_true]
    obtain ⟨e, he, hp⟩ := List.any_eq_true.mp hany
    exact ⟨e, he, by simp [hp]⟩
  · intro hany
    apply hf
    rw [hasInferredEdge, List.any_eq_true]
    obtain ⟨e, he, hp⟩ := List.any_eq_true.mp hany
    exact ⟨e, he, by simp [hp]⟩

/-- **C3**: for every graph whose table nodes have pairwise-distinct ids,
`getTableLevels` terminates and returns exactly one `TableLevel` record per
table node (the result's ids are a permutation of the table-node ids), and
every record's level is an integer `≥ 0`; this holds also when the inferred
edges contain cycles, via the fallback round. -/
theorem levels_total_nonneg (g : Graph) (hN : (tableIds g).Nodup) :
    List.Perm ((getTableLevels g).map (fun r => r.id)) (tableIds g)
    ∧ ∀ r ∈ getTableLevels g, 0 ≤ r.level := by
  have hN' : ((tableNodesOf g).map (fun tb => tb.id)).Nodup := hN
  have hiso := isolated_map_id g
  have hisoN : ((isolatedTables (tableNodesOf g) (inferTableRelationships g)).map
      (fun tb => tb.id)).Nodup := by
    rw [hiso]
    exact hN'.filter _
  have hp0 := firstDedup_eq_self hisoN
  have hKfd := firstDedup_eq_self hN'
  have hp0sub : ∀ p ∈ firstDedup ((isolatedTables (tableNodesOf g)
      (inferTableRelationships g)).map (fun tb => tb.id)),
      p ∈ firstDedup ((tableNodesOf g).map (fun tb => tb.id)) := by
    intro p hp
    rw [hp0, hiso] at hp
    rw [hKfd]
    exact (List.mem_filter.mp hp).1
  have hfuel : ((firstDedup ((tableNodesOf g).map (fun tb => tb.id))).filter
      (fun k => k ∉ firstDedup ((isolatedTables (tableNodesOf g)
        (inferTableRelationships g)).map (fun tb => tb.id)))).length
      < (tableNodesOf g).length + 1 := by
    have h1 := List.length_filter_le (fun k => k ∉ firstDedup ((isolatedTables
      (tableNodesOf g) (inferTableRelationships g)).map (fun tb => tb.id)))
      (firstDedup ((tableNodesOf g).map (fun tb => tb.id)))
    have h2 : (firstDedup ((tableNodesOf g).map (fun tb => tb.id))).length
        = (tableNodesOf g).length := by
      rw [hKfd, List.length_map]
    omega
  obtain ⟨hperm, hbound, hmax⟩ := levelsLoop_spec (tableNodesOf g)
    (firstDedup ((tableNodesOf g).map (fun tb => tb.id)))
    (depsOf (inferTableRelationships g))
    hKfd.symm (nodup_firstDedup _)
    ((tableNodesOf g).length + 1)
    (firstDedup ((isolatedTables (tableNodesOf g) (inferTableRelationships g)).map
      (fun tb => tb.id)))
    1 1
    (nodup_firstDedup _) hp0sub hfuel (by norm_num) (by norm_num)
  have hperm' : ((loopRes g).1.map (fun r => r.id)).Perm
      (((tableNodesOf g).map (fun tb => tb.id)).filter (fun k =>
        k ∉ (isolatedTables (tableNodesOf g) (inferTableRelationships g)).map
          (fun tb => tb.id))) := by
    refine hperm.trans (List.Perm.of_eq ?_)
    rw [hKfd, hp0]
  have hbound' : ∀ r ∈ (loopRes g).1, 1 ≤ r.level ∧ r.level ≤ (loopRes g).2 + 1 := hbound
  constructor
  · have hgl := (getTableLevels_perm_remapped g).map (fun r => r.id)
    rw [remappedOf_map_id] at hgl
    refine hgl.trans ?_
    rw [levelsPre, List.map_append, map_tl_id_iso]
    refine List.Perm.trans ?_
      (filter_partition_perm ((tableNodesOf g).map (fun tb : Node => tb.id)) (fun k =>
        ¬ (inferTableRelationships g).any (fun e => e.target = k) ∧
        ¬ (inferTableRelationships g).any (fun e => e.source = k)))
    rw [hiso]
    refine List.Perm.append_left _ ?_
    have h := hperm'
    rw [hiso] at h
    exact h
  · intro r hr
    have hr2 : r ∈ remappedOf g := (getTableLevels_perm_remapped g).mem_iff.mp hr
    obtain ⟨r0, hr0, rfl⟩ := List.mem_map.mp hr2
    rcases List.mem_append.mp hr0 with h | h
    · obtain ⟨tb, _, rfl⟩ := List.mem_map.mp h
      simp
    · obtain ⟨hb1, hb2⟩ := hbound' r0 h
      by_cases h0 : r0.level = 0
      · rw [if_pos h0]
        omega
      · rw [if_neg h0]
        show 0 ≤ (loopRes g).2 - r0.level + 1
        omega

/-- Witness for C3: the theorem applied to the concrete cycle-plus-isolated
graph `gW3`, whose hypothesis holds by evaluation. -/
theorem levels_total_witness :
    (tableIds gW3).Nodup
    ∧ (List.Perm ((getTableLevels gW3).map (fun r => r.id)) (tableIds gW3)
        ∧ ∀ r ∈ getTableLevels gW3, 0 ≤ r.level) :=
  ⟨by decide, levels_total_nonneg gW3 (by decide)⟩

theorem loopRes_acyclic (g : Graph)
    (hN : ((tableNodesOf g).map (fun tb => tb.id)).Nodup)
    (hT : ∀ e ∈ inferTableRelationships g,
        e.source ∈ (tableNodesOf g).map (fun tb => tb.id)
        ∧ e.target ∈ (tableNodesOf g).map (fun tb => tb.id))
    (hA : AcyclicPairs ((inferTableRelationships g).map pairOf)) :
    List.Perm ((loopRes g).1.map (fun r => r.id))
      (((tableNodesOf g).map (fun tb => tb.id)).filter (fun k =>
        k ∉ (isolatedTables (tableNodesOf g) (inferTableRelationships g)).map
          (fun tb => tb.id)))
    ∧ (∀ r ∈ (loopRes g).1, 1 ≤ r.level ∧ r.level ≤ (loopRes g).2)
    ∧ (∀ r ∈ (loopRes g).1, ∀ d ∈ depsOf (inferTableRelationships g) r.id,
        d ∈ (isolatedTables (tableNodesOf g) (inferTableRelationships g)).map
          (fun tb => tb.id)
        ∨ ∃ r' ∈ (loopRes g).1, r'.id = d ∧ r'.level < r.level) := by
  obtain ⟨rank, hrk⟩ := hA
  have hiso := isolated_map_id g
  have hisoN : ((isolatedTables (tableNodesOf g) (inferTableRelationships g)).map
      (fun tb => tb.id)).Nodup := by
    rw [hiso]
    exact hN.filter _
  have hp0 := firstDedup_eq_self hisoN
  have hKfd := firstDedup_eq_self hN
  have hp0sub : ∀ p ∈ firstDedup ((isolatedTables (tableNodesOf g)
      (inferTableRelationships g)).map (fun tb => tb.id)),
      p ∈ firstDedup ((tableNodesOf g).map (fun tb => tb.id)) := by
    intro p hp
    rw [hp0, hiso] at hp
    rw [hKfd]
    exact (List.mem_filter.mp hp).1
  have hfuel : ((firstDedup ((tableNodesOf g).map (fun tb => tb.id))).filter
      (fun k => k ∉ firstDedup ((isolatedTables (tableNodesOf g)
        (inferTableRelationships g)).map (fun tb => tb.id)))).length
      < (tableNodesOf g).length + 1 := by
    have h1 := List.length_filter_le (fun k => k ∉ firstDedup ((isolatedTables
      (tableNodesOf g) (inferTableRelationships g)).map (fun tb => tb.id)))
      (firstDedup ((tableNodesOf g).map (fun tb => tb.id)))
    have h2 : (firstDedup ((tableNodesOf g).map (fun tb => tb.id))).length
        = (tableNodesOf g).length := by
      rw [hKfd, List.length_map]
    omega
  have hdepsub : ∀ k ∈ firstDedup ((tableNodesOf g).map (fun tb => tb.id)),
      ∀ d ∈ depsOf (inferTableRelationships g) k,
      d ∈ firstDedup ((tableNodesOf g).map (fun tb => tb.id)) := by
    intro k _ d hd
    obtain ⟨e, he, hs, ht⟩ := mem_depsOf.mp hd
    rw [hKfd]
    exact ht ▸ (hT e he).2
  have hrank : ∀ k ∈ firstDedup ((tableNodesOf g).map (fun tb => tb.id)),
      ∀ d ∈ depsOf (inferTableRelationships g) k, rank d < rank k := by
    intro k _ d hd
    obtain ⟨e, he, hs, ht⟩ := mem_depsOf.mp hd
    have h2 := hrk (pairOf e) (List.mem_map.mpr ⟨e, he, rfl⟩)
    simp only [pairOf] at h2
    rw [hs, ht] at h2
    exact h2
  obtain ⟨hperm, hbound, hmax, hdeps⟩ := levelsLoop_acyclic_spec (tableNodesOf g)
    (firstDedup ((tableNodesOf g).map (fun tb => tb.id)))
    (depsOf (inferTableRelationships g)) rank
    hKfd.symm (nodup_firstDedup _) hdepsub hrank
    ((tableNodesOf g).length + 1)
    (firstDedup ((isolatedTables (tableNodesOf g) (inferTableRelationships g)).map
      (fun tb => tb.id)))
    1 1
    (nodup_firstDedup _) hp0sub hfuel (by norm_num) (by norm_num)
  refine ⟨?_, hbound, ?_⟩
  · refine hperm.trans (List.Perm.of_eq ?_)
    rw [hKfd, hp0]
  · intro r hr d hd
    rcases hdeps r hr d hd with h | h
    · left
      rw [hp0] at h
      exact h
    · right
      exact h

/-- **C2** (amended): the claim's biconditional fails on cyclic graphs (see
the counterexample); it does hold for every graph with distinct table-node
ids whose inferred edges have endpoints among the table ids and are acyclic:
a record's level is `0` exactly when its table has no inferred edge. -/
theorem level_zero_iff_no_edge (g : Graph) (hN : (tableIds g).Nodup)
    (hT : ∀ e ∈ inferTableRelationships g,
      e.source ∈ tableIds g ∧ e.target ∈ tableIds g)
    (hA : AcyclicPairs ((inferTableRelationships g).map pairOf)) :
    ∀ r ∈ getTableLevels g, (r.level = 0 ↔ hasInferredEdge g r.id = false) := by
  have hN' : ((tableNodesOf g).map (fun tb => tb.id)).Nodup := hN
  have hT' : ∀ e ∈ inferTableRelationships g,
      e.source ∈ (tableNodesOf g).map (fun tb => tb.id)
      ∧ e.target ∈ (tableNodesOf g).map (fun tb => tb.id) := hT
  obtain ⟨hperm, hbound, hdeps⟩ := loopRes_acyclic g hN' hT' hA
  intro r hr
  have hr2 : r ∈ remappedOf g := (getTableLevels_perm_remapped g).mem_iff.mp hr
  obtain ⟨r0, hr0, rfl⟩ := List.mem_map.mp hr2
  rcases List.mem_append.mp hr0 with h | h
  · obtain ⟨tb, htb, rfl⟩ := List.mem_map.mp h
    have hnoe := iso_no_edge g tb htb
    simp [hnoe]
  · obtain ⟨hb1, hb2⟩ := hbound r0 h
    have hidmem : r0.id ∈ ((tableNodesOf g).map (fun tb => tb.id)).filter (fun k =>
        k ∉ (isolatedTables (tableNodesOf g) (inferTableRelationships g)).map
          (fun tb => tb.id)) :=
      hperm.mem_iff.mp (List.mem_map.mpr ⟨r0, h, rfl⟩)
    have hk := not_mem_decode hidmem
    have hhas := not_iso_has_edge g hk.1 hk.2
    rw [if_neg (by omega : ¬ r0.level = 0)]
    have hlv : (loopRes g).2 - r0.level + 1 ≠ 0 := by omega
    simp [hlv, hhas]

/-- Witness for the amended C2 theorem at the acyclic chain `gW1`. -/
theorem level_zero_iff_witness :
    ((tableIds gW1).Nodup
      ∧ (∀ e ∈ inferTableRelationships gW1,
          e.source ∈ tableIds gW1 ∧ e.target ∈ tableIds gW1)
      ∧ AcyclicPairs ((inferTableRelationships gW1).map pairOf))
    ∧ ∀ r ∈ getTableLevels gW1, (r.level = 0 ↔ hasInferredEdge gW1 r.id = false) :=
  ⟨⟨by decide, by decide, ⟨rankW1, by decide⟩⟩,
   level_zero_iff_no_edge gW1 (by decide) (by decide) ⟨rankW1, by decide⟩⟩

/-- **C1** (amended): the claim's monotonicity fails for acyclic inferred
edges alone (see the counterexample with an unresolvable dependency id); it
holds for every graph with distinct table-node ids whose inferred edges are
acyclic and have both endpoints among the table ids: along every inferred
edge `s → t` the remapped level of `s` is strictly below that of `t`. -/
theorem levels_monotone (g : Graph) (hN : (tableIds g).Nodup)
    (hT : ∀ e ∈ inferTableRelationships g,
      e.source ∈ tableIds g ∧ e.target ∈ tableIds g)
    (hA : AcyclicPairs ((inferTableRelationships g).map pairOf)) :
    ∀ e ∈ inferTableRelationships g, ∀ rs ∈ getTableLevels g,
      ∀ rt ∈ getTableLevels g,
        rs.id = e.source → rt.id = e.target → rs.level < rt.level := by
  have hN' : ((tableNodesOf g).map (fun tb => tb.id)).Nodup := hN
  have hT' : ∀ e ∈ inferTableRelationships g,
      e.source ∈ (tableNodesOf g).map (fun tb => tb.id)
      ∧ e.target ∈ (tableNodesOf g).map (fun tb => tb.id) := hT
  obtain ⟨hperm, hbound, hdeps⟩ := loopRes_acyclic g hN' hT' hA
  have hLN : ((loopRes g).1.map (fun r => r.id)).Nodup :=
    hperm.symm.nodup (hN'.filter _)
  intro e he rs hrs rt hrt hsid htid
  have hrs2 : rs ∈ remappedOf g := (getTableLevels_perm_remapped g).mem_iff.mp hrs
  obtain ⟨rs0, hrs0, hrseq⟩ := List.mem_map.mp hrs2
  have hrt2 : rt ∈ remappedOf g := (getTableLevels_perm_remapped g).mem_iff.mp hrt
  obtain ⟨rt0, hrt0, hrteq⟩ := List.mem_map.mp hrt2
  have hrsid : rs0.id = e.source := by
    rw [← hsid, ← hrseq]
    exact (remapFn_id (loopRes g).2 rs0).symm
  have hrtid : rt0.id = e.target := by
    rw [← htid, ← hrteq]
    exact (remapFn_id (loopRes g).2 rt0).symm
  have hrs0loop : rs0 ∈ (loopRes g).1 := by
    rcases List.mem_append.mp hrs0 with h | h
    · exfalso
      obtain ⟨tb, htb, htbeq⟩ := List.mem_map.mp h
      have hno := iso_no_edge g tb htb
      have h3 : rs0.id = tb.id := by rw [← htbeq]
      have h2 : hasInferredEdge g tb.id = true := by
        rw [← h3]
        rw [hasInferredEdge, List.any_eq_true]
        exact ⟨e, he, by simp [hrsid]⟩
      rw [hno] at h2
      exact Bool.false_ne_true h2
    · exact h
  have hrt0loop : rt0 ∈ (loopRes g).1 := by
    rcases List.mem_append.mp hrt0 with h | h
    · exfalso
      obtain ⟨tb, htb, htbeq⟩ := List.mem_map.mp h
      have hno := iso_no_edge g tb htb
      have h3 : rt0.id = tb.id := by rw [← htbeq]
      have h2 : hasInferredEdge g tb.id = true := by
        rw [← h3]
        rw [hasInferredEdge, List.any_eq_true]
        exact ⟨e, he, by simp [hrtid]⟩
      rw [hno] at h2
      exact Bool.false_ne_true h2
    · exact h
  have hd : e.target ∈ depsOf (inferTableRelationships g) rs0.id :=
    mem_depsOf.mpr ⟨e, he, hrsid.symm, rfl⟩
  rcases hdeps rs0 hrs0loop e.target hd with h | ⟨r2, hr2, hid2, hlt⟩
  · exfalso
    obtain ⟨tb, htb, htbeq⟩ := List.mem_map.mp h
    have hno := iso_no_edge g tb htb
    have h2 : hasInferredEdge g tb.id = true := by
      rw [htbeq]
      rw [hasInferredEdge, List.any_eq_true]
      exact ⟨e, he, by simp⟩
    rw [hno] at h2
    exact Bool.false_ne_true h2
  · have hre : r2 = rt0 :=
      List.inj_on_of_nodup_map hLN hr2 hrt0loop (by rw [hid2, hrtid])
    obtain ⟨hbs1, hbs2⟩ := hbound rs0 hrs0loop
    obtain ⟨hbt1, hbt2⟩ := hbound rt0 hrt0loop
    have hlt2 : rt0.level < rs0.level := by rw [← hre]; exact hlt
    rw [← hrseq, ← hrteq]
    rw [if_neg (by omega : ¬ rs0.level = 0), if_neg (by omega : ¬ rt0.level = 0)]
    show (loopRes g).2 - rs0.level + 1 < (loopRes g).2 - rt0.level + 1
    omega

/-- Witness for the amended C1 theorem at the acyclic chain `gW1`. -/
theorem levels_monotone_witness :
    ((tableIds gW1).Nodup
      ∧ (∀ e ∈ inferTableRelationships gW1,
          e.source ∈ tableIds gW1 ∧ e.target ∈ tableIds gW1)
      ∧ AcyclicPairs ((inferTableRelationships gW1).map pairOf))
    ∧ ∀ e ∈ inferTableRelationships gW1, ∀ rs ∈ getTableLevels gW1,
        ∀ rt ∈ getTableLevels gW1,
          rs.id = e.source → rt.id = e.target → rs.level < rt.level :=
  ⟨⟨by decide, by decide, ⟨rankW1, by decide⟩⟩,
   levels_monotone gW1 (by decide) (by decide) ⟨rankW1, by decide⟩⟩

end LineageMap
